import Mathlib

/-!
Verification of the core of the `dobby` file-backed relational storage
engine against its natural-language specification.

The development shallowly embeds the relevant source code:

* `src/core/types.rs` — `DataType`, `TypedValue`, the binary cell codec
  (`TypedValue::read`, `TypedValue::into_bytes`) and value coercion
  (`TypedValue::coerce`);
* `src/core/table/mod.rs` — the append-only table file with tombstone
  deletion (`next_row`, `insert`, `select`, `update`, `delete`,
  `coerce`, `check_conditions`);
* `src/core/schema/mod.rs` — the schema catalog (`dump`, `load`,
  `alter_table`, `validate_name`).

Machine integers are modelled as natural-number bit patterns
(`i64`/`f64` as a `Nat < 2^64`); a Rust `char` as its code point;
a Rust `String` as its list of UTF-8 bytes.  IEEE-754 equality on
`f64` (what Rust's derived `PartialEq` uses on the `Float` payloads)
is modelled on bit patterns by `f64Eq`.  The table file is modelled
as the list of its physical records (a tombstone flag plus the cells
in schema order); byte offsets of records then correspond to record
indices, since every record occupies at least one byte.  External
standard-library functions that the code calls on strings
(`str::parse::<i64>`, `str::parse::<f64>`, complex parsing, and the
`i64 -> f64` cast) are taken as parameters (`ParseFns`): no theorem
below depends on their behaviour.
-/

deriving instance DecidableEq for Except

namespace Dobby

/-! ### Little-endian byte helpers -/

/-- `k`-byte little-endian encoding of a natural number, as in
`i64::to_le_bytes` / `u64::to_le_bytes` on the bit pattern. -/
def toLeBytes : Nat → Nat → List Nat
  | 0, _ => []
  | k + 1, n => n % 256 :: toLeBytes k (n / 256)

/-- Little-endian decoding, as in `i64::from_le_bytes` / `u64::from_le_bytes`. -/
def fromLeBytes : List Nat → Nat
  | [] => 0
  | b :: bs => b + 256 * fromLeBytes bs

/-- `read_exact` into a `k`-byte buffer: succeeds iff at least `k`
bytes remain, returning the bytes read and the rest of the stream. -/
def takeExact (k : Nat) (bs : List Nat) : Option (List Nat × List Nat) :=
  if k ≤ bs.length then some (bs.take k, bs.drop k) else none

/-! ### UTF-8 validity (the check inside `String::from_utf8`) -/

/-- A UTF-8 continuation byte. -/
def isCont (b : Nat) : Bool := decide (0x80 ≤ b) && decide (b ≤ 0xBF)

/-- One pass of the UTF-8 validity check, structurally recursive on a
fuel argument (each step consumes at least one byte, so fuel equal to
the length of the input always suffices). -/
def validUtf8Go : Nat → List Nat → Bool
  | _, [] => true
  | 0, _ :: _ => false
  | fuel + 1, b :: rest =>
    if b ≤ 0x7F then validUtf8Go fuel rest
    else if 0xC2 ≤ b ∧ b ≤ 0xDF then
      match rest with
      | c1 :: restTl => isCont c1 && validUtf8Go fuel restTl
      | [] => false
    else if b = 0xE0 then
      match rest with
      | c1 :: c2 :: restTl =>
        decide (0xA0 ≤ c1) && decide (c1 ≤ 0xBF) && isCont c2 && validUtf8Go fuel restTl
      | _ => false
    else if (0xE1 ≤ b ∧ b ≤ 0xEC) ∨ b = 0xEE ∨ b = 0xEF then
      match rest with
      | c1 :: c2 :: restTl => isCont c1 && isCont c2 && validUtf8Go fuel restTl
      | _ => false
    else if b = 0xED then
      match rest with
      | c1 :: c2 :: restTl =>
        decide (0x80 ≤ c1) && decide (c1 ≤ 0x9F) && isCont c2 && validUtf8Go fuel restTl
      | _ => false
    else if b = 0xF0 then
      match rest with
      | c1 :: c2 :: c3 :: restTl =>
        decide (0x90 ≤ c1) && decide (c1 ≤ 0xBF) && isCont c2 && isCont c3 &&
          validUtf8Go fuel restTl
      | _ => false
    else if 0xF1 ≤ b ∧ b ≤ 0xF3 then
      match rest with
      | c1 :: c2 :: c3 :: restTl => isCont c1 && isCont c2 && isCont c3 && validUtf8Go fuel restTl
      | _ => false
    else if b = 0xF4 then
      match rest with
      | c1 :: c2 :: c3 :: restTl =>
        decide (0x80 ≤ c1) && decide (c1 ≤ 0x8F) && isCont c2 && isCont c3 &&
          validUtf8Go fuel restTl
      | _ => false
    else false

/-- Validity of a byte sequence as UTF-8, exactly the shortest-form,
surrogate-excluding check performed by `String::from_utf8`. -/
def validUtf8 (bs : List Nat) : Bool := validUtf8Go bs.length bs

/-! ### IEEE-754 double equality on bit patterns -/

/-- The bit pattern is a NaN: exponent field all ones, mantissa nonzero. -/
def f64IsNaN (bits : Nat) : Bool :=
  (bits / 2 ^ 52) % 2 ^ 11 == 0x7FF && bits % 2 ^ 52 != 0

/-- The bit pattern is `+0.0` or `-0.0`. -/
def f64IsZero (bits : Nat) : Bool := bits % 2 ^ 63 == 0

/-- IEEE-754 `==` on two `f64` bit patterns (Rust `f64: PartialEq`):
NaN is equal to nothing, `+0.0 == -0.0`, and otherwise equality of
values coincides with equality of bit patterns. -/
def f64Eq (a b : Nat) : Bool :=
  !f64IsNaN a && !f64IsNaN b && (a == b || (f64IsZero a && f64IsZero b))

/-! ### `DataType` and `TypedValue` (src/core/types.rs) -/

/-- The `DataType` enum of src/core/types.rs. -/
inductive DataType where
  | int
  | float
  | char
  | string
  | complexInt
  | complexFloat
  deriving DecidableEq

/-- The discriminant values `Int = 0, …, ComplexFloat = 5`. -/
def DataType.ordinal : DataType → Nat
  | .int => 0
  | .float => 1
  | .char => 2
  | .string => 3
  | .complexInt => 4
  | .complexFloat => 5

/-- The `From<i32> for DataType` impl; `none` models its
`unreachable!` arm for out-of-range discriminants. -/
def DataType.fromI32 : Nat → Option DataType
  | 0 => some .int
  | 1 => some .float
  | 2 => some .char
  | 3 => some .string
  | 4 => some .complexInt
  | 5 => some .complexFloat
  | _ => none

/-- The textual form written by the `fmt::Debug` impl for `DataType`. -/
def DataType.dbgName : DataType → List Char
  | .int => ['i', 'n', 't']
  | .float => ['f', 'l', 'o', 'a', 't']
  | .char => ['c', 'h', 'a', 'r']
  | .string => ['s', 't', 'r', 'i', 'n', 'g']
  | .complexInt => ['c', 'o', 'm', 'p', 'l', 'e', 'x', '_', 'i', 'n', 't']
  | .complexFloat => ['c', 'o', 'm', 'p', 'l', 'e', 'x', '_', 'f', 'l', 'o', 'a', 't']

/-- The `TryFrom<&str> for DataType` impl. -/
def DataType.tryFromChars (s : List Char) : Option DataType :=
  if s = ['i', 'n', 't'] then some .int
  else if s = ['f', 'l', 'o', 'a', 't'] then some .float
  else if s = ['c', 'h', 'a', 'r'] then some .char
  else if s = ['s', 't', 'r', 'i', 'n', 'g'] then some .string
  else if s = ['c', 'o', 'm', 'p', 'l', 'e', 'x', '_', 'i', 'n', 't'] then some .complexInt
  else if s = ['c', 'o', 'm', 'p', 'l', 'e', 'x', '_', 'f', 'l', 'o', 'a', 't'] then
    some .complexFloat
  else none

/-- The `TypedValue` enum of src/core/types.rs.  `Int` and `Float`
payloads are 64-bit patterns; `Char` carries its code point; `String`
carries its UTF-8 bytes. -/
inductive TypedValue where
  | int (bits : Nat)
  | float (bits : Nat)
  | char (code : Nat)
  | string (bytes : List Nat)
  | complexInt (rbits ibits : Nat)
  | complexFloat (rbits ibits : Nat)
  deriving DecidableEq

/-- `TypedValue::data_type`. -/
def TypedValue.dataType : TypedValue → DataType
  | .int _ => .int
  | .float _ => .float
  | .char _ => .char
  | .string _ => .string
  | .complexInt _ _ => .complexInt
  | .complexFloat _ _ => .complexFloat

/-- Rust's derived `PartialEq` on `TypedValue`: componentwise, with
IEEE-754 equality on the `f64` payloads. -/
def TypedValue.rustEq : TypedValue → TypedValue → Bool
  | .int a, .int b => a == b
  | .float a, .float b => f64Eq a b
  | .char a, .char b => a == b
  | .string a, .string b => a == b
  | .complexInt a b, .complexInt c d => a == c && b == d
  | .complexFloat a b, .complexFloat c d => f64Eq a c && f64Eq b d
  | _, _ => false

/-- Well-formedness of a value as it exists in the Rust program:
64-bit payloads fit in 64 bits, a `char` is a Unicode scalar value,
a `String` is valid UTF-8 of `u64`-expressible length. -/
def TypedValue.wf : TypedValue → Prop
  | .int b => b < 2 ^ 64
  | .float b => b < 2 ^ 64
  | .char c => c < 0xD800 ∨ (0xE000 ≤ c ∧ c < 0x110000)
  | .string s => validUtf8 s = true ∧ s.length < 2 ^ 64
  | .complexInt a b => a < 2 ^ 64 ∧ b < 2 ^ 64
  | .complexFloat a b => a < 2 ^ 64 ∧ b < 2 ^ 64

instance (v : TypedValue) : Decidable v.wf := by
  cases v <;> simp only [TypedValue.wf] <;> infer_instance

/-- `TypedValue::into_bytes`: the on-disk cell encoding.  Note the
`Char` arm is `vec![c as u8]`, i.e. the low 8 bits of the code point. -/
def TypedValue.intoBytes : TypedValue → List Nat
  | .int b => toLeBytes 8 b
  | .float b => toLeBytes 8 b
  | .char c => [c % 256]
  | .string s => toLeBytes 8 s.length ++ s
  | .complexInt a b => toLeBytes 8 a ++ toLeBytes 8 b
  | .complexFloat a b => toLeBytes 8 a ++ toLeBytes 8 b

/-- `TypedValue::read`: decode one cell of the given type from a byte
stream; `none` models an `io::Error` (short read or invalid UTF-8). -/
def TypedValue.read (t : DataType) (bs : List Nat) : Option (TypedValue × List Nat) :=
  match t with
  | .int =>
    match takeExact 8 bs with
    | some (w, rest) => some (.int (fromLeBytes w), rest)
    | none => none
  | .float =>
    match takeExact 8 bs with
    | some (w, rest) => some (.float (fromLeBytes w), rest)
    | none => none
  | .char =>
    match bs with
    | b :: rest => some (.char b, rest)
    | [] => none
  | .string =>
    match takeExact 8 bs with
    | some (lw, rest) =>
      match takeExact (fromLeBytes lw) rest with
      | some (sw, rest') => if validUtf8 sw then some (.string sw, rest') else none
      | none => none
    | none => none
  | .complexInt =>
    match takeExact 8 bs with
    | some (rw, rest) =>
      match takeExact 8 rest with
      | some (iw, rest') => some (.complexInt (fromLeBytes rw) (fromLeBytes iw), rest')
      | none => none
    | none => none
  | .complexFloat =>
    match takeExact 8 bs with
    | some (rw, rest) =>
      match takeExact 8 rest with
      | some (iw, rest') => some (.complexFloat (fromLeBytes rw) (fromLeBytes iw), rest')
      | none => none
    | none => none

/-- The `Char` payloads of a value fit in one byte (the regime in
which the `Char` codec is lossless). -/
def TypedValue.charFits : TypedValue → Prop
  | .char c => c < 256
  | _ => True

instance (v : TypedValue) : Decidable v.charFits := by
  cases v <;> simp only [TypedValue.charFits] <;> infer_instance

/-! ### Errors (src/core/types.rs, `DobbyError`; only the variants the
core table/schema paths can produce are needed) -/

/-- The error enum (`DobbyError`, aliased `DbError` at use sites). -/
inductive DbError where
  | tableAlreadyExists (t : String)
  | tableNotFound (t : String)
  | columnAlreadyExists (c t : String)
  | noColumns
  | columnNotFound (c t : String)
  | invalidName (s : String)
  | invalidValue (v : TypedValue) (t : DataType)
  | incompleteData (c t : String)
  | invalidDataType (s : String)
  deriving DecidableEq

/-! ### Value coercion (`TypedValue::coerce`)

The standard-library text conversions the source calls
(`str::parse::<i64>`, `str::parse::<f64>`, `str::parse::<Complex<_>>`
and the `as f64` cast) are opaque externals; they are parameters of
the model and no theorem depends on what they return. -/

/-- UTF-8 encoding of one code point (`char::to_string`). -/
def utf8Encode (c : Nat) : List Nat :=
  if c < 0x80 then [c]
  else if c < 0x800 then [0xC0 + c / 64, 0x80 + c % 64]
  else if c < 0x10000 then [0xE0 + c / 4096, 0x80 + (c / 64) % 64, 0x80 + c % 64]
  else [0xF0 + c / 262144, 0x80 + (c / 4096) % 64, 0x80 + (c / 64) % 64, 0x80 + c % 64]

/-- The external text-conversion functions used by `TypedValue::coerce`:
each takes the UTF-8 bytes of the textual form (results are bit
patterns). -/
structure ParseFns where
  parseI64 : List Nat → Option Nat
  parseF64 : List Nat → Option Nat
  parseCI : List Nat → Option (Nat × Nat)
  parseCF : List Nat → Option (Nat × Nat)
  i64ToF64 : Nat → Nat

/-- A degenerate `ParseFns` instantiation for concrete witnesses (no
theorem depends on the choice). -/
def noParse : ParseFns := ⟨fun _ => none, fun _ => none, fun _ => none, fun _ => none, fun _ => 0⟩

/-- `TypedValue::validate` (always `Ok` in the source). -/
def TypedValue.validate (_ : TypedValue) : Except DbError Unit := .ok ()

/-- `TypedValue::coerce`: identity when the type already matches,
otherwise the conversion matrix of src/core/types.rs. -/
def TypedValue.coerce (P : ParseFns) (v : TypedValue) (tgt : DataType) : Except DbError TypedValue :=
  if v.dataType = tgt then .ok v
  else
    match v, tgt with
    | .string s, .char =>
      match s with
      | [b] => .ok (.char b)
      | _ => .error (.invalidValue (.string s) tgt)
    | .string s, .int =>
      match P.parseI64 s with
      | some n => .ok (.int n)
      | none => .error (.invalidValue (.string s) tgt)
    | .string s, .float =>
      match P.parseF64 s with
      | some n => .ok (.float n)
      | none => .error (.invalidValue (.string s) tgt)
    | .string s, .complexInt =>
      match P.parseCI s with
      | some (r, i) => .ok (.complexInt r i)
      | none => .error (.invalidValue (.string s) tgt)
    | .string s, .complexFloat =>
      match P.parseCF s with
      | some (r, i) => .ok (.complexFloat r i)
      | none => .error (.invalidValue (.string s) tgt)
    | .char c, .string => .ok (.string (utf8Encode c))
    | .char c, .int =>
      match P.parseI64 (utf8Encode c) with
      | some n => .ok (.int n)
      | none => .error (.invalidValue (.char c) tgt)
    | .char c, .float =>
      match P.parseF64 (utf8Encode c) with
      | some n => .ok (.float n)
      | none => .error (.invalidValue (.char c) tgt)
    | .char c, .complexInt =>
      match P.parseCI (utf8Encode c) with
      | some (r, i) => .ok (.complexInt r i)
      | none => .error (.invalidValue (.char c) tgt)
    | .char c, .complexFloat =>
      match P.parseCF (utf8Encode c) with
      | some (r, i) => .ok (.complexFloat r i)
      | none => .error (.invalidValue (.char c) tgt)
    | .int i, .float => .ok (.float (P.i64ToF64 i))
    | .complexInt r i, .complexFloat => .ok (.complexFloat (P.i64ToF64 r) (P.i64ToF64 i))
    | w, _ => .error (.invalidValue w tgt)

/-! ### Column sets (`ColumnSet = HashMap<String, TypedValue>`)

A hash map is modelled as an association list with pairwise-distinct
keys; the operations below mirror `get` / `insert` / `remove_entry`. -/

/-- A `{column → value}` map. -/
abbrev ColSet := List (String × TypedValue)

/-- `HashMap::get`. -/
def getVal : ColSet → String → Option TypedValue
  | [], _ => none
  | (k, v) :: rest, c => if k = c then some v else getVal rest c

/-- `HashMap::insert` (replaces the value at an existing key). -/
def insertVal : ColSet → String → TypedValue → ColSet
  | [], c, v => [(c, v)]
  | (k, w) :: rest, c, v => if k = c then (k, v) :: rest else (k, w) :: insertVal rest c v

/-- `HashMap::remove_entry`, returning the removed value and the rest
of the map. -/
def removeEntry {α : Type} : List (String × α) → String → Option (α × List (String × α))
  | [], _ => none
  | (k, v) :: rest, c =>
    if k = c then some (v, rest)
    else
      match removeEntry rest c with
      | some (w, m) => some (w, (k, v) :: m)
      | none => none

/-- `HashMap::get` on an arbitrary string-keyed map. -/
def assocGet {α : Type} : List (String × α) → String → Option α
  | [], _ => none
  | (k, v) :: rest, c => if k = c then some v else assocGet rest c

/-- `Entry::insert` on an occupied entry: replace the value stored at
the key. -/
def assocPut {α : Type} : List (String × α) → String → α → List (String × α)
  | [], c, v => [(c, v)]
  | (k, w) :: rest, c, v => if k = c then (k, v) :: rest else (k, w) :: assocPut rest c v

/-! ### The table file (src/core/table/mod.rs)

The file is a concatenation of physical records
`[tombstone: u8][cell_0]…[cell_{n-1}]`, modelled as a list of `Rec`.
Each record occupies at least one byte, so the byte offset captured
by `next_row` identifies the record index, and the EOF offset
captured at the start of `update` identifies the initial record
count; `update`'s `offset == eof` stop therefore corresponds to
running the scan over exactly the records present when it began. -/

/-- One physical record: the tombstone flag and the cells in schema
order. -/
structure Rec where
  deleted : Bool
  values : List TypedValue
  deriving DecidableEq

/-- A `Table`: its name and ordered `(column, type)` schema (the
`file` handle is passed explicitly as a `List Rec`). -/
structure Table where
  name : String
  columns : List (String × DataType)

/-- The row map `next_row` builds from a record: each schema column
mapped to the corresponding cell. -/
def mkRow (cols : List (String × DataType)) (vals : List TypedValue) : ColSet :=
  List.zip (cols.map Prod.fst) vals

/-- A record as produced by decoding against the schema: one cell per
column, each cell of the column's declared type (this is forced by
`TypedValue::read`, which yields the variant of the type it is
given). -/
def recWF (t : Table) (r : Rec) : Bool :=
  r.values.length == t.columns.length &&
    (List.zip t.columns r.values).all fun cv => cv.2.dataType == cv.1.2

/-- `Table::coerce`, iterating the schema columns and draining the
input map; a leftover key is `ColumnNotFound`. -/
def Table.coerceGo (P : ParseFns) (tname : String) :
    List (String × DataType) → ColSet → ColSet → Except DbError ColSet
  | [], m, acc =>
    match m with
    | [] => .ok acc
    | (k, _) :: _ => .error (.columnNotFound k tname)
  | (c, dt) :: cols, m, acc =>
    match removeEntry m c with
    | some (v, m') =>
      match TypedValue.coerce P v dt with
      | .ok w =>
        match w.validate with
        | .ok _ => Table.coerceGo P tname cols m' (acc ++ [(c, w)])
        | .error e => .error e
      | .error e => .error e
    | none => Table.coerceGo P tname cols m acc

/-- `Table::coerce` entry point. -/
def Table.coerceSet (t : Table) (P : ParseFns) (m : ColSet) : Except DbError ColSet :=
  Table.coerceGo P t.name t.columns m []

/-- The loop of `Table::check_conditions`: a running conjunction over
the condition entries; a condition naming a column absent from the
row is `ColumnNotFound`. -/
def Table.checkGo (tname : String) (row : ColSet) : List (String × TypedValue) → Bool → Except DbError Bool
  | [], acc => .ok acc
  | (c, v) :: rest, acc =>
    match getVal row c with
    | some rv => Table.checkGo tname row rest (acc && rv.rustEq v)
    | none => .error (.columnNotFound c tname)

/-- `Table::check_conditions`. -/
def Table.checkConditions (t : Table) (row conds : ColSet) : Except DbError Bool :=
  Table.checkGo t.name row conds true

/-- The record-building loop of `Table::insert`: one cell per schema
column, taken from the (coerced) values map; a missing column is
`IncompleteData`. -/
def Table.buildVals (tname : String) : List (String × DataType) → ColSet → Except DbError (List TypedValue)
  | [], _ => .ok []
  | (c, _) :: cols, values =>
    match getVal values c with
    | some v =>
      match Table.buildVals tname cols values with
      | .ok vs => .ok (v :: vs)
      | .error e => .error e
    | none => .error (.incompleteData c tname)

/-- `Table::insert`: coerce the values, build the record, append it
at end-of-file, return the coerced row. -/
def Table.insertM (t : Table) (P : ParseFns) (values : ColSet) (file : List Rec) :
    Except DbError (ColSet × List Rec) :=
  match t.coerceSet P values with
  | .error e => .error e
  | .ok values =>
    match Table.buildVals t.name t.columns values with
    | .error e => .error e
    | .ok vals => .ok (values, file ++ [⟨false, vals⟩])

/-- `row.retain(|key, _| columns.is_empty() || columns.contains(key))`. -/
def projectRow (cols : List String) (row : ColSet) : ColSet :=
  row.filter fun kv => cols.isEmpty || cols.contains kv.1

/-- The scan loop of `Table::select` over the records of the file:
skip tombstoned records, drop rows failing the predicate, check the
projection and project surviving rows. -/
def Table.selectGo (t : Table) (cols : List String) (conds : ColSet) :
    List Rec → Except DbError (List ColSet)
  | [] => .ok []
  | r :: rest =>
    if r.deleted then Table.selectGo t cols conds rest
    else
      match t.checkConditions (mkRow t.columns r.values) conds with
      | .error e => .error e
      | .ok b =>
        if b then
          match cols.find? (fun c => (getVal (mkRow t.columns r.values) c).isNone) with
          | some c => .error (.columnNotFound c t.name)
          | none =>
            match Table.selectGo t cols conds rest with
            | .ok rows => .ok (projectRow cols (mkRow t.columns r.values) :: rows)
            | .error e => .error e
        else Table.selectGo t cols conds rest

/-- `Table::select`. -/
def Table.selectM (t : Table) (P : ParseFns) (cols : List String) (conds : ColSet)
    (file : List Rec) : Except DbError (List ColSet) :=
  match t.coerceSet P conds with
  | .error e => .error e
  | .ok conds => Table.selectGo t cols conds file

/-- The `set`-overlay loop of `Table::update`: writes each `set`
entry into the row, tracking `was_updated` (Rust `!=`, i.e. negated
IEEE-aware equality, against the previous value); a `set` key absent
from the row is `ColumnNotFound`. -/
def Table.applySet (tname : String) : List (String × TypedValue) → ColSet → Except DbError (ColSet × Bool)
  | [], row => .ok (row, false)
  | (c, v) :: rest, row =>
    match getVal row c with
    | none => .error (.columnNotFound c tname)
    | some old =>
      match Table.applySet tname rest (insertVal row c v) with
      | .ok (row', ch) => .ok (row', ch || !old.rustEq v)
      | .error e => .error e

/-- The scan loop of `Table::update` over the records present when the
call began (the `offset == eof` stop): for each live matching record
whose overlay changed it, record the new row, append the re-inserted
record (via `insert`'s coerce-and-build) and tombstone the original.
Returns (updated rows, transformed originals, appended records). -/
def Table.updateGo (t : Table) (P : ParseFns) (set conds : ColSet) :
    List Rec → Except DbError (List ColSet × List Rec × List Rec)
  | [] => .ok ([], [], [])
  | r :: rest =>
    if r.deleted then
      match Table.updateGo t P set conds rest with
      | .ok (u, f, a) => .ok (u, r :: f, a)
      | .error e => .error e
    else
      match t.checkConditions (mkRow t.columns r.values) conds with
      | .error e => .error e
      | .ok b =>
        if b then
          match Table.applySet t.name set (mkRow t.columns r.values) with
          | .error e => .error e
          | .ok (newRow, changed) =>
            if changed then
              match t.coerceSet P newRow with
              | .error e => .error e
              | .ok coerced =>
                match Table.buildVals t.name t.columns coerced with
                | .error e => .error e
                | .ok newVals =>
                  match Table.updateGo t P set conds rest with
                  | .ok (u, f, a) =>
                    .ok (newRow :: u, Rec.mk true r.values :: f, Rec.mk false newVals :: a)
                  | .error e => .error e
            else
              match Table.updateGo t P set conds rest with
              | .ok (u, f, a) => .ok (u, r :: f, a)
              | .error e => .error e
        else
          match Table.updateGo t P set conds rest with
          | .ok (u, f, a) => .ok (u, r :: f, a)
          | .error e => .error e

/-- `Table::update`: coerce `set` and `where`, scan the pre-existing
records, and leave the appended records after them at end-of-file. -/
def Table.updateM (t : Table) (P : ParseFns) (set conds : ColSet) (file : List Rec) :
    Except DbError (List ColSet × List Rec) :=
  match t.coerceSet P set with
  | .error e => .error e
  | .ok set =>
    match t.coerceSet P conds with
    | .error e => .error e
    | .ok conds =>
      match Table.updateGo t P set conds file with
      | .ok (u, f, a) => .ok (u, f ++ a)
      | .error e => .error e

/-- The scan loop of `Table::delete`: tombstone every live matching
record. -/
def Table.deleteGo (t : Table) (conds : ColSet) :
    List Rec → Except DbError (List ColSet × List Rec)
  | [] => .ok ([], [])
  | r :: rest =>
    if r.deleted then
      match Table.deleteGo t conds rest with
      | .ok (d, f) => .ok (d, r :: f)
      | .error e => .error e
    else
      match t.checkConditions (mkRow t.columns r.values) conds with
      | .error e => .error e
      | .ok b =>
        if b then
          match Table.deleteGo t conds rest with
          | .ok (d, f) => .ok (mkRow t.columns r.values :: d, Rec.mk true r.values :: f)
          | .error e => .error e
        else
          match Table.deleteGo t conds rest with
          | .ok (d, f) => .ok (d, r :: f)
          | .error e => .error e

/-- `Table::delete`. -/
def Table.deleteM (t : Table) (P : ParseFns) (conds : ColSet) (file : List Rec) :
    Except DbError (List ColSet × List Rec) :=
  match t.coerceSet P conds with
  | .error e => .error e
  | .ok conds => Table.deleteGo t conds file

/-- The logical content of the file: the row of every live record, in
file order (what a `Select` with empty `where` and empty projection
returns). -/
def liveRows (t : Table) : List Rec → List ColSet
  | [] => []
  | r :: rest =>
    if r.deleted then liveRows t rest else mkRow t.columns r.values :: liveRows t rest

/-! ### Schema catalog (src/core/schema/mod.rs)

The catalog file is modelled as the list of the characters written to
it; names are Lean `String`s (converted with `String.toList` /
`String.mk` at the file boundary). -/

/-- `str::split_once`: split at the first occurrence of `sep`;
`none` when `sep` does not occur. -/
def splitOnce (sep : Char) : List Char → Option (List Char × List Char)
  | [] => none
  | c :: rest =>
    if c = sep then some ([], rest)
    else
      match splitOnce sep rest with
      | some (l, r) => some (c :: l, r)
      | none => none

/-- `str::split(sep)`: every (possibly empty) fragment between
occurrences of `sep`; always at least one fragment. -/
def splitAll (sep : Char) : List Char → List (List Char)
  | [] => [[]]
  | c :: rest =>
    let parts := splitAll sep rest
    if c = sep then [] :: parts else (c :: parts.headI) :: parts.tail

/-- `Vec::join(sep)` on text fragments. -/
def joinWith (sep : Char) : List (List Char) → List Char
  | [] => []
  | [l] => l
  | l :: ls => l ++ sep :: joinWith sep ls

/-- `BufRead::lines` strips one trailing carriage return per line. -/
def stripCR (l : List Char) : List Char :=
  if l.getLast? = some '\r' then l.dropLast else l

/-- `BufRead::lines`: fragments before each newline; a final fragment
after the last newline only if non-empty. -/
def rustLines (s : List Char) : List (List Char) :=
  let parts := splitAll '\n' s
  let parts := if parts.getLast? = some [] then parts.dropLast else parts
  parts.map stripCR

/-- The `SchemaKind` enum. -/
inductive SchemaKind where
  | dobby
  | sqlite
  deriving DecidableEq

/-- `format!("{:?}", kind).to_lowercase()`. -/
def SchemaKind.lowerName : SchemaKind → List Char
  | .dobby => ['d', 'o', 'b', 'b', 'y']
  | .sqlite => ['s', 'q', 'l', 'i', 't', 'e']

/-- The `Schema` struct: table map (association list with distinct
keys), display name, backend kind. -/
structure Schema where
  tables : List (String × List (String × DataType))
  name : String
  kind : SchemaKind
  deriving DecidableEq

/-- One `column:type` chunk of a catalog line. -/
def colChunk (c : String × DataType) : List Char :=
  c.1.toList ++ ':' :: DataType.dbgName c.2

/-- One catalog line `<table>#<col1>:<type1>,…` (without the trailing
newline). -/
def tableLine (t : String × List (String × DataType)) : List Char :=
  t.1.toList ++ '#' :: joinWith ',' (t.2.map colChunk)

/-- `Schema::dump`: the characters written to the `.schema` file —
the header `<name>:<kind>` then one line per table, each line
newline-terminated. -/
def Schema.dumpContent (s : Schema) : List Char :=
  s.name.toList ++ ':' :: s.kind.lowerName ++ '\n' ::
    (s.tables.map fun t => tableLine t ++ ['\n']).flatten

/-- One `column:type` chunk parsed back (`split_once(':')` then
`DataType::try_from`). -/
def parseColumn (s : List Char) : Option (String × DataType) :=
  match splitOnce ':' s with
  | none => none
  | some (c, tstr) =>
    match DataType.tryFromChars tstr with
    | none => none
    | some dt => some (String.mk c, dt)

/-- `tables.entry(table).or_insert_with(Vec::new).push(col)`. -/
def pushCol (tabs : List (String × List (String × DataType))) (t : String)
    (cd : String × DataType) : List (String × List (String × DataType)) :=
  match tabs with
  | [] => [(t, [cd])]
  | (k, cols) :: rest =>
    if k = t then (k, cols ++ [cd]) :: rest else (k, cols) :: pushCol rest t cd

/-- The per-column loop of `Schema::load` on one line: parse each
`column:type` chunk and push it into the accumulated table map. -/
def parseChunks (table : String) :
    List (List Char) → List (String × List (String × DataType)) →
      Option (List (String × List (String × DataType)))
  | [], tabs => some tabs
  | chunk :: chunks, tabs =>
    match parseColumn chunk with
    | none => none
    | some cd => parseChunks table chunks (pushCol tabs table cd)

/-- Parsing one table line of the catalog file into the accumulated
table map. -/
def parseLine (tabs : List (String × List (String × DataType))) (line : List Char) :
    Option (List (String × List (String × DataType))) :=
  match splitOnce '#' line with
  | none => none
  | some (table, colsStr) => parseChunks (String.mk table) (splitAll ',' colsStr) tabs

/-- The line loop of `Schema::load`. -/
def parseLines (tabs : List (String × List (String × DataType))) :
    List (List Char) → Option (List (String × List (String × DataType)))
  | [] => some tabs
  | line :: rest =>
    match parseLine tabs line with
    | none => none
    | some tabs' => parseLines tabs' rest

/-- `Schema::load` from file content; `none` models the source's
panics on a corrupted or empty file. -/
def Schema.loadContent (content : List Char) : Option Schema :=
  match rustLines content with
  | [] => none
  | header :: rest =>
    match splitOnce ':' header with
    | none => none
    | some (name, kindStr) =>
      match parseLines [] rest with
      | none => none
      | some tabs =>
        if kindStr = SchemaKind.dobby.lowerName then some ⟨tabs, String.mk name, .dobby⟩
        else if kindStr = SchemaKind.sqlite.lowerName then some ⟨tabs, String.mk name, .sqlite⟩
        else none

/-- `Schema::validate_name`.  `isAlnum` is Rust's Unicode
`char::is_alphanumeric`, an external the model is parameterized
over (every theorem using it only assumes its values on ASCII). -/
def validateName (isAlnum : Char → Bool) (s : String) : Except DbError Unit :=
  if s.toList.all (fun c => isAlnum c || c = '_') then .ok () else .error (.invalidName s)

/-- The character class `[A-Za-z0-9_]` named by the specification
(`Char.isAlphanum` is ASCII-only in Lean). -/
def asciiNameChar (c : Char) : Bool := c.isAlphanum || c = '_'

/-- The per-column loop of `Schema::alter_table`: rename each column
through the map (validating new names), failing on a duplicate
against the columns built so far; returns the new columns and the
unconsumed entries of the rename map. -/
def alterGo (isAlnum : Char → Bool) (table : String) :
    List (String × DataType) → List (String × String) → List (String × DataType) →
    Except DbError (List (String × DataType) × List (String × String))
  | [], ren, acc => .ok (acc, ren)
  | (c, dt) :: cols, ren, acc =>
    match removeEntry ren c with
    | some (newName, ren') =>
      match validateName isAlnum newName with
      | .error e => .error e
      | .ok _ =>
        if acc.any (fun p => p.1 = newName) then .error (.columnAlreadyExists newName table)
        else alterGo isAlnum table cols ren' (acc ++ [(newName, dt)])
    | none =>
      if acc.any (fun p => p.1 = c) then .error (.columnAlreadyExists c table)
      else alterGo isAlnum table cols ren (acc ++ [(c, dt)])

/-- `Schema::alter_table`.  Returns the catalog after the call and
the error, if any (the source mutates `self.tables` only through the
final `entry.insert`). -/
def Schema.alterTable (isAlnum : Char → Bool) (s : Schema) (table : String)
    (rename : List (String × String)) : Schema × Option DbError :=
  match assocGet s.tables table with
  | none => (s, some (.tableNotFound table))
  | some cols =>
    match alterGo isAlnum table cols rename [] with
    | .error e => (s, some e)
    | .ok (newCols, renLeft) =>
      match renLeft with
      | (k, _) :: _ => (s, some (.columnNotFound k table))
      | [] => ({ s with tables := assocPut s.tables table newCols }, none)

/-- Conjunction of all condition entries against a row (the value
`check_conditions` accumulates when no column is missing). -/
def allMatch (row : ColSet) (conds : List (String × TypedValue)) : Bool :=
  conds.all fun p =>
    match getVal row p.1 with
    | some rv => rv.rustEq p.2
    | none => false

/-- A row in canonical form for a schema: one entry per column, in
schema order, each value of the column's declared type — the shape of
every row produced by `next_row` and of every row `update` overlays. -/
def canonRow (cols : List (String × DataType)) (row : ColSet) : Prop :=
  List.Forall₂ (fun cd p => p.1 = cd.1 ∧ TypedValue.dataType p.2 = cd.2) cols row

/-! ## Helper lemmas -/

theorem length_toLeBytes (k n : Nat) : (toLeBytes k n).length = k := by
  induction k generalizing n with
  | zero => rfl
  | succ k ih => simp [toLeBytes, ih]

theorem pow256_8 : (256 : Nat) ^ 8 = 2 ^ 64 := by norm_num

theorem fromLeBytes_toLeBytes (k n : Nat) (h : n < 256 ^ k) :
    fromLeBytes (toLeBytes k n) = n := by
  induction k generalizing n with
  | zero => simp only [pow_zero, Nat.lt_one_iff] at h; simp [toLeBytes, fromLeBytes, h]
  | succ k ih =>
    have hd : n / 256 < 256 ^ k := by
      rw [pow_succ] at h
      exact Nat.div_lt_of_lt_mul (by omega)
    simp only [toLeBytes, fromLeBytes, ih _ hd]
    omega

theorem takeExact_all (k : Nat) (bs : List Nat) (h : bs.length = k) :
    takeExact k bs = some (bs, []) := by
  subst h; simp [takeExact]

theorem takeExact_append (k : Nat) (xs ys : List Nat) (h : xs.length = k) :
    takeExact k (xs ++ ys) = some (xs, ys) := by
  subst h
  simp [takeExact, List.take_left, List.drop_left]

theorem list_all_congr {α : Type} {f g : α → Bool} {l : List α}
    (h : ∀ a ∈ l, f a = g a) : l.all f = l.all g := by
  induction l with
  | nil => rfl
  | cons a l ih => simp_all

/-- A NaN `Float` cell compares unequal to every value under Rust's
`PartialEq` on `TypedValue`. -/
theorem rustEq_nan_left {nb : Nat} (h : f64IsNaN nb = true) (w : TypedValue) :
    TypedValue.rustEq (.float nb) w = false := by
  cases w <;> simp [TypedValue.rustEq, f64Eq, h]

theorem checkGo_eq {tname : String} {row : ColSet} {conds : List (String × TypedValue)}
    (h : ∀ p ∈ conds, (getVal row p.1).isSome = true) (acc : Bool) :
    Table.checkGo tname row conds acc = .ok (acc && allMatch row conds) := by
  induction conds generalizing acc with
  | nil => simp [Table.checkGo, allMatch]
  | cons p rest ih =>
    obtain ⟨c, v⟩ := p
    have hp := h (c, v) (by simp)
    cases hv : getVal row c with
    | none => rw [hv] at hp; simp at hp
    | some rv =>
      have hrest : ∀ p ∈ rest, (getVal row p.1).isSome = true := fun p hp => h p (by simp [hp])
      simp [Table.checkGo, hv, ih hrest, allMatch, Bool.and_assoc]

/-- Any binding in the output of `Table::coerce`'s loop is either
carried over from the accumulator or keyed by a schema column. -/
theorem coerceGo_mem (P : ParseFns) (tname : String) (cols : List (String × DataType)) :
    ∀ (m acc res : ColSet), Table.coerceGo P tname cols m acc = .ok res →
      ∀ p ∈ res, p ∈ acc ∨ p.1 ∈ cols.map Prod.fst := by
  induction cols with
  | nil =>
    intro m acc res h p hp
    cases m with
    | nil =>
      simp only [Table.coerceGo] at h
      cases h
      exact Or.inl hp
    | cons q qs =>
      obtain ⟨k, v⟩ := q
      simp only [Table.coerceGo] at h
      exact Except.noConfusion h
  | cons cd cols ih =>
    intro m acc res h p hp
    obtain ⟨c, dt⟩ := cd
    cases hre : removeEntry m c with
    | some vm =>
      obtain ⟨v, m'⟩ := vm
      simp only [Table.coerceGo, hre] at h
      cases hco : TypedValue.coerce P v dt with
      | error e =>
        simp only [hco] at h
        exact Except.noConfusion h
      | ok w =>
        simp only [hco, TypedValue.validate] at h
        rcases ih m' (acc ++ [(c, w)]) res h p hp with hin | hin
        · rcases List.mem_append.mp hin with h1 | h1
          · exact Or.inl h1
          · simp only [List.mem_singleton] at h1
            subst h1
            exact Or.inr (by simp)
        · exact Or.inr (by simp [hin])
    | none =>
      simp only [Table.coerceGo, hre] at h
      rcases ih m acc res h p hp with hin | hin
      · exact Or.inl hin
      · exact Or.inr (by simp [hin])

/-- The row `next_row` builds from a full-length record has a value
for every schema column. -/
theorem getVal_mkRow_isSome (cols : List (String × DataType)) (vals : List TypedValue)
    (hlen : vals.length = cols.length) (c : String) (hc : c ∈ cols.map Prod.fst) :
    (getVal (mkRow cols vals) c).isSome = true := by
  induction cols generalizing vals with
  | nil => simp at hc
  | cons cd cols ih =>
    cases vals with
    | nil => simp at hlen
    | cons v vs =>
      obtain ⟨k, dt⟩ := cd
      simp only [mkRow, List.map_cons, List.zip_cons_cons] at hc ⊢
      by_cases hk : k = c
      · simp [getVal, hk]
      · rcases List.mem_cons.mp hc with h1 | h1
        · exact absurd h1.symm hk
        · simp only [getVal, if_neg hk]
          exact ih vs (by simpa using hlen) h1

/-- On a coerced conditions map and a full-length record,
`check_conditions` is total: it returns `Ok` of the conjunction. -/
theorem checkConditions_total (t : Table) (P : ParseFns) (m conds : ColSet)
    (r : Rec) (hc : t.coerceSet P m = .ok conds) (hr : recWF t r = true) :
    ∃ b, t.checkConditions (mkRow t.columns r.values) conds = .ok b := by
  have hlen : r.values.length = t.columns.length := by
    simp only [recWF, Bool.and_eq_true, beq_iff_eq] at hr
    exact hr.1
  have hkeys : ∀ p ∈ conds, (getVal (mkRow t.columns r.values) p.1).isSome = true := by
    intro p hp
    rcases coerceGo_mem P t.name t.columns m [] conds hc p hp with h | h
    · simp at h
    · exact getVal_mkRow_isSome t.columns r.values hlen p.1 h
  rw [Table.checkConditions]
  exact ⟨_, checkGo_eq hkeys true⟩

/-- Replacing the value at one key leaves lookups at other keys
unchanged. -/
theorem getVal_insertVal_ne (row : ColSet) (c k : String) (v : TypedValue) (h : k ≠ c) :
    getVal (insertVal row c v) k = getVal row k := by
  induction row with
  | nil =>
    simp only [insertVal, getVal]
    rw [if_neg (fun hh => h hh.symm)]
  | cons p rest ih =>
    obtain ⟨a, b⟩ := p
    simp only [insertVal]
    by_cases hac : a = c
    · rw [if_pos hac]
      simp only [getVal]
      rw [if_neg (fun hh => h (hh.symm.trans hac)), if_neg (fun hh => h (hh.symm.trans hac))]
    · rw [if_neg hac]
      simp only [getVal]
      by_cases hak : a = k
      · rw [if_pos hak, if_pos hak]
      · rw [if_neg hak, if_neg hak]
        exact ih

/-- If a row already agrees (under Rust `==`) with every `set` entry,
the overlay loop of `update` reports `was_updated = false`. -/
theorem applySet_nochange (tname : String) :
    ∀ (set : List (String × TypedValue)) (row : ColSet),
      (set.map Prod.fst).Nodup →
      (∀ p ∈ set, ∃ old, getVal row p.1 = some old ∧ old.rustEq p.2 = true) →
      ∃ row', Table.applySet tname set row = .ok (row', false) := by
  intro set
  induction set with
  | nil =>
    intro row _ _
    exact ⟨row, rfl⟩
  | cons p rest ih =>
    intro row hnd hkeys
    obtain ⟨c, v⟩ := p
    obtain ⟨old, hold, heq⟩ := hkeys (c, v) (by simp)
    simp only [List.map_cons, List.nodup_cons] at hnd
    have hkeys' : ∀ q ∈ rest,
        ∃ old, getVal (insertVal row c v) q.1 = some old ∧ old.rustEq q.2 = true := by
      intro q hq
      obtain ⟨o, ho, he⟩ := hkeys q (by simp [hq])
      refine ⟨o, ?_, he⟩
      rw [getVal_insertVal_ne row c q.1 v fun hh => hnd.1 (hh ▸ List.mem_map_of_mem Prod.fst hq)]
      exact ho
    obtain ⟨row', hrow'⟩ := ih (insertVal row c v) hnd.2 hkeys'
    refine ⟨row', ?_⟩
    simp only [Table.applySet, hold, hrow', heq]
    rfl

/-- The keys of `Table::coerce`'s output extend the accumulator's by
a sublist of the schema column names. -/
theorem coerceGo_keys (P : ParseFns) (tname : String) (cols : List (String × DataType)) :
    ∀ (m acc res : ColSet), Table.coerceGo P tname cols m acc = .ok res →
      ∃ l, res.map Prod.fst = acc.map Prod.fst ++ l ∧ l.Sublist (cols.map Prod.fst) := by
  induction cols with
  | nil =>
    intro m acc res h
    cases m with
    | nil =>
      simp only [Table.coerceGo] at h
      cases h
      exact ⟨[], by simp⟩
    | cons q qs =>
      obtain ⟨k, v⟩ := q
      simp only [Table.coerceGo] at h
      exact Except.noConfusion h
  | cons cd cols ih =>
    intro m acc res h
    obtain ⟨c, dt⟩ := cd
    cases hre : removeEntry m c with
    | some vm =>
      obtain ⟨v, m'⟩ := vm
      simp only [Table.coerceGo, hre] at h
      cases hco : TypedValue.coerce P v dt with
      | error e =>
        simp only [hco] at h
        exact Except.noConfusion h
      | ok w =>
        simp only [hco, TypedValue.validate] at h
        obtain ⟨l, hl, hs⟩ := ih m' (acc ++ [(c, w)]) res h
        refine ⟨c :: l, ?_, List.Sublist.cons₂ c hs⟩
        rw [hl]
        simp
    | none =>
      simp only [Table.coerceGo, hre] at h
      obtain ⟨l, hl, hs⟩ := ih m acc res h
      exact ⟨l, hl, hs.cons c⟩

/-- A coerced map has pairwise-distinct keys whenever the schema's
column names are pairwise distinct. -/
theorem coerceSet_keys_nodup (t : Table) (P : ParseFns) (m res : ColSet)
    (h : t.coerceSet P m = .ok res) (hcols : (t.columns.map Prod.fst).Nodup) :
    (res.map Prod.fst).Nodup := by
  rw [Table.coerceSet] at h
  obtain ⟨l, hl, hs⟩ := coerceGo_keys P t.name t.columns m [] res h
  rw [hl]
  simpa using hcols.sublist hs

/-- If every live record of the file fails-or-agrees with the `set`
overlay (no cell would change), the `update` scan neither appends nor
tombstones and reports no updated rows. -/
theorem updateGo_nochange (t : Table) (P : ParseFns) (set conds : ColSet)
    (hnd : (set.map Prod.fst).Nodup) :
    ∀ file : List Rec,
      (∀ r ∈ file, r.deleted = false →
        ∃ b, t.checkConditions (mkRow t.columns r.values) conds = .ok b) →
      (∀ r ∈ file, r.deleted = false →
        t.checkConditions (mkRow t.columns r.values) conds = .ok true →
        ∀ p ∈ set, ∃ old, getVal (mkRow t.columns r.values) p.1 = some old ∧
          old.rustEq p.2 = true) →
      Table.updateGo t P set conds file = .ok ([], file, []) := by
  intro file
  induction file with
  | nil => intro _ _; rfl
  | cons r rest ih =>
    intro hchk hmatch
    have hrest := ih (fun x hx => hchk x (by simp [hx])) (fun x hx => hmatch x (by simp [hx]))
    cases hdel : r.deleted with
    | true =>
      simp only [Table.updateGo, hdel, if_true, hrest]
    | false =>
      obtain ⟨b, hb⟩ := hchk r (by simp) hdel
      cases b with
      | false =>
        simp only [Table.updateGo, hdel, Bool.false_eq_true, if_false, hb, hrest]
      | true =>
        obtain ⟨row', hrow'⟩ := applySet_nochange t.name set (mkRow t.columns r.values) hnd
          (hmatch r (by simp) hdel hb)
        simp only [Table.updateGo, hdel, Bool.false_eq_true, if_false, hb, if_true, hrow',
          hrest]

/-- Every `Ok` branch of `TypedValue::coerce` yields a value of the
target type. -/
theorem coerce_dataType (P : ParseFns) (v : TypedValue) (dt : DataType) (w : TypedValue)
    (h : TypedValue.coerce P v dt = .ok w) : w.dataType = dt := by
  cases v <;> cases dt <;>
    (simp [TypedValue.coerce, TypedValue.dataType] at h <;>
      first
        | (cases h; rfl)
        | (split at h <;> first | exact Except.noConfusion h | (cases h; rfl)))

/-- Looking a key up in a duplicate-free association list finds its
unique binding. -/
theorem assocGet_of_mem_nodup {α : Type} (cols : List (String × α)) (k : String) (dt : α)
    (hmem : (k, dt) ∈ cols) (hnd : (cols.map Prod.fst).Nodup) : assocGet cols k = some dt := by
  induction cols with
  | nil => simp at hmem
  | cons cd cols ih =>
    obtain ⟨a, b⟩ := cd
    simp only [List.map_cons, List.nodup_cons] at hnd
    rcases List.mem_cons.mp hmem with h1 | h1
    · cases h1
      simp [assocGet]
    · have hk : a ≠ k := fun hh =>
        hnd.1 (hh ▸ List.mem_map_of_mem Prod.fst h1)
      simp only [assocGet, if_neg hk]
      exact ih h1 hnd.2

/-- Any binding produced by `Table::coerce`'s loop (beyond the
accumulator) is keyed by a schema column and holds a value of that
column's type. -/
theorem coerceGo_types (P : ParseFns) (tname : String) (cols : List (String × DataType)) :
    ∀ (m acc res : ColSet), Table.coerceGo P tname cols m acc = .ok res →
      ∀ p ∈ res, p ∈ acc ∨ ∃ dt, (p.1, dt) ∈ cols ∧ p.2.dataType = dt := by
  induction cols with
  | nil =>
    intro m acc res h p hp
    cases m with
    | nil =>
      simp only [Table.coerceGo] at h
      cases h
      exact Or.inl hp
    | cons q qs =>
      obtain ⟨k, v⟩ := q
      simp only [Table.coerceGo] at h
      exact Except.noConfusion h
  | cons cd cols ih =>
    intro m acc res h p hp
    obtain ⟨c, dt⟩ := cd
    cases hre : removeEntry m c with
    | some vm =>
      obtain ⟨v, m'⟩ := vm
      simp only [Table.coerceGo, hre] at h
      cases hco : TypedValue.coerce P v dt with
      | error e =>
        simp only [hco] at h
        exact Except.noConfusion h
      | ok w =>
        simp only [hco, TypedValue.validate] at h
        rcases ih m' (acc ++ [(c, w)]) res h p hp with hin | hin
        · rcases List.mem_append.mp hin with h1 | h1
          · exact Or.inl h1
          · simp only [List.mem_singleton] at h1
            subst h1
            exact Or.inr ⟨dt, by simp, coerce_dataType P v dt w hco⟩
        · obtain ⟨dt', hdt', hty⟩ := hin
          exact Or.inr ⟨dt', by simp [hdt'], hty⟩
    | none =>
      simp only [Table.coerceGo, hre] at h
      rcases ih m acc res h p hp with hin | hin
      · exact Or.inl hin
      · obtain ⟨dt', hdt', hty⟩ := hin
        exact Or.inr ⟨dt', by simp [hdt'], hty⟩

/-- A canonical row's key sequence is the schema's column-name
sequence. -/
theorem canon_keys {cols : List (String × DataType)} {row : ColSet}
    (h : canonRow cols row) : row.map Prod.fst = cols.map Prod.fst := by
  induction h with
  | nil => rfl
  | cons hd _ ih => simp [ih, hd.1]

/-- Each entry of a canonical row is typed by its column (looked up
in the schema). -/
theorem canon_typed {cols : List (String × DataType)} {row : ColSet}
    (h : canonRow cols row) (hnd : (cols.map Prod.fst).Nodup) :
    ∀ p ∈ row, ∃ dt, assocGet cols p.1 = some dt ∧ p.2.dataType = dt := by
  induction h with
  | nil =>
    intro p hp
    simp at hp
  | cons hd tl ih =>
    rename_i cd p₀ cols' row'
    obtain ⟨c, dt⟩ := cd
    obtain ⟨k, v⟩ := p₀
    obtain ⟨hk, hty⟩ := hd
    simp only at hk hty
    subst hk
    simp only [List.map_cons, List.nodup_cons] at hnd
    intro q hq
    rcases List.mem_cons.mp hq with h1 | h1
    · subst h1
      exact ⟨dt, by simp [assocGet], hty⟩
    · obtain ⟨dt', hget, htq⟩ := ih hnd.2 q h1
      have hne : k ≠ q.1 := by
        intro hh
        refine hnd.1 ?_
        rw [hh, ← canon_keys tl]
        exact List.mem_map_of_mem Prod.fst h1
      exact ⟨dt', by simp only [assocGet, if_neg hne]; exact hget, htq⟩

/-- A row with the schema's exact key sequence whose every entry is
typed by its column is canonical. -/
theorem canon_of (cols : List (String × DataType)) :
    ∀ row : ColSet, row.map Prod.fst = cols.map Prod.fst →
      (cols.map Prod.fst).Nodup →
      (∀ p ∈ row, ∃ dt, assocGet cols p.1 = some dt ∧ p.2.dataType = dt) →
      canonRow cols row := by
  induction cols with
  | nil =>
    intro row hk _ _
    simp only [List.map_nil, List.map_eq_nil_iff] at hk
    subst hk
    exact List.Forall₂.nil
  | cons cd cols ih =>
    intro row hk hnd htyped
    obtain ⟨c, dt⟩ := cd
    cases row with
    | nil => simp at hk
    | cons p row' =>
      obtain ⟨k, v⟩ := p
      simp only [List.map_cons, List.cons.injEq] at hk
      obtain ⟨hk1, hk2⟩ := hk
      subst hk1
      simp only [List.map_cons, List.nodup_cons] at hnd
      refine List.Forall₂.cons ⟨rfl, ?_⟩ ?_
      · obtain ⟨dt', hget, hty⟩ := htyped (k, v) (by simp)
        simp only [assocGet, if_pos rfl] at hget
        cases hget
        exact hty
      · refine ih row' hk2 hnd.2 ?_
        intro q hq
        obtain ⟨dt', hget, hty⟩ := htyped q (by simp [hq])
        have hne : k ≠ q.1 := by
          intro hh
          refine hnd.1 ?_
          rw [hh, ← hk2]
          exact List.mem_map_of_mem Prod.fst hq
        simp only [assocGet, if_neg hne] at hget
        exact ⟨dt', hget, hty⟩

/-- The row built by `next_row` from a well-formed record is
canonical. -/
theorem mkRow_canon (cols : List (String × DataType)) :
    ∀ vals : List TypedValue, vals.length = cols.length →
      (∀ q ∈ List.zip cols vals, TypedValue.dataType q.2 = q.1.2) →
      canonRow cols (mkRow cols vals) := by
  induction cols with
  | nil =>
    intro vals _ _
    simp only [mkRow, List.map_nil, List.zip_nil_left]
    exact List.Forall₂.nil
  | cons cd cols ih =>
    intro vals hlen hall
    cases vals with
    | nil => simp at hlen
    | cons v vs =>
      obtain ⟨k, dt⟩ := cd
      simp only [mkRow, List.map_cons, List.zip_cons_cons]
      refine List.Forall₂.cons ⟨rfl, hall ((k, dt), v) (by simp [List.zip_cons_cons])⟩ ?_
      exact ih vs (by simpa using hlen) fun q hq => hall q (by simp [List.zip_cons_cons, hq])

/-- Replacing the value at a present key leaves the key sequence
unchanged. -/
theorem insertVal_keys (row : ColSet) (c : String) (v old : TypedValue)
    (h : getVal row c = some old) :
    (insertVal row c v).map Prod.fst = row.map Prod.fst := by
  induction row with
  | nil => simp [getVal] at h
  | cons p rest ih =>
    obtain ⟨a, b⟩ := p
    simp only [getVal] at h
    by_cases hac : a = c
    · simp [insertVal, hac]
    · rw [if_neg hac] at h
      simp only [insertVal, if_neg hac, List.map_cons]
      rw [ih h]

/-- The `set` overlay of `update` preserves the row's key sequence. -/
theorem applySet_keys (tname : String) :
    ∀ (set : List (String × TypedValue)) (row row' : ColSet) (ch : Bool),
      Table.applySet tname set row = .ok (row', ch) →
      row'.map Prod.fst = row.map Prod.fst := by
  intro set
  induction set with
  | nil =>
    intro row row' ch h
    simp only [Table.applySet] at h
    obtain ⟨rfl, rfl⟩ := Prod.mk.inj (Except.ok.inj h)
    rfl
  | cons q rest ih =>
    intro row row' ch h
    obtain ⟨c, v⟩ := q
    cases hget : getVal row c with
    | none =>
      simp only [Table.applySet, hget] at h
      exact Except.noConfusion h
    | some old =>
      simp only [Table.applySet, hget] at h
      cases hrec : Table.applySet tname rest (insertVal row c v) with
      | error e =>
        simp only [hrec] at h
        exact Except.noConfusion h
      | ok pr =>
        obtain ⟨row₀, ch₀⟩ := pr
        simp only [hrec] at h
        obtain ⟨rfl, rfl⟩ := Prod.mk.inj (Except.ok.inj h)
        rw [ih (insertVal row c v) row₀ ch₀ hrec, insertVal_keys row c v old hget]

/-- Writing a correctly-typed value into a typed row keeps it typed. -/
theorem insertVal_typed (cols : List (String × DataType)) (row : ColSet) (c : String)
    (v : TypedValue)
    (hrow : ∀ p ∈ row, ∃ dt, assocGet cols p.1 = some dt ∧ p.2.dataType = dt)
    (hv : ∃ dt, assocGet cols c = some dt ∧ v.dataType = dt) :
    ∀ p ∈ insertVal row c v, ∃ dt, assocGet cols p.1 = some dt ∧ p.2.dataType = dt := by
  induction row with
  | nil =>
    intro p hp
    simp only [insertVal, List.mem_singleton] at hp
    subst hp
    exact hv
  | cons q rest ih =>
    obtain ⟨a, b⟩ := q
    intro p hp
    by_cases hac : a = c
    · simp only [insertVal, if_pos hac] at hp
      rcases List.mem_cons.mp hp with h1 | h1
      · subst h1
        obtain ⟨dt, h1, h2⟩ := hv
        exact ⟨dt, hac.symm ▸ h1, h2⟩
      · exact hrow p (List.mem_cons_of_mem _ h1)
    · simp only [insertVal, if_neg hac] at hp
      rcases List.mem_cons.mp hp with h1 | h1
      · subst h1
        exact hrow (a, b) (by simp)
      · exact ih (fun q hq => hrow q (by simp [hq])) p h1

/-- The `set` overlay of `update` keeps the row typed when the `set`
values are typed. -/
theorem applySet_typed (tname : String) (cols : List (String × DataType)) :
    ∀ (set : List (String × TypedValue)) (row row' : ColSet) (ch : Bool),
      Table.applySet tname set row = .ok (row', ch) →
      (∀ p ∈ row, ∃ dt, assocGet cols p.1 = some dt ∧ p.2.dataType = dt) →
      (∀ p ∈ set, ∃ dt, assocGet cols p.1 = some dt ∧ p.2.dataType = dt) →
      ∀ p ∈ row', ∃ dt, assocGet cols p.1 = some dt ∧ p.2.dataType = dt := by
  intro set
  induction set with
  | nil =>
    intro row row' ch h hrow _
    simp only [Table.applySet] at h
    obtain ⟨rfl, rfl⟩ := Prod.mk.inj (Except.ok.inj h)
    exact hrow
  | cons q rest ih =>
    intro row row' ch h hrow hset
    obtain ⟨c, v⟩ := q
    cases hget : getVal row c with
    | none =>
      simp only [Table.applySet, hget] at h
      exact Except.noConfusion h
    | some old =>
      simp only [Table.applySet, hget] at h
      cases hrec : Table.applySet tname rest (insertVal row c v) with
      | error e =>
        simp only [hrec] at h
        exact Except.noConfusion h
      | ok pr =>
        obtain ⟨row₀, ch₀⟩ := pr
        simp only [hrec] at h
        obtain ⟨rfl, rfl⟩ := Prod.mk.inj (Except.ok.inj h)
        exact ih (insertVal row c v) row₀ ch₀ hrec
          (insertVal_typed cols row c v hrow (hset (c, v) (by simp)))
          (fun q hq => hset q (by simp [hq]))

/-- `Table::coerce` is the identity on a canonical row: every key is
found, every value already has its declared type. -/
theorem coerceGo_canonical (P : ParseFns) (tname : String)
    {cols : List (String × DataType)} {row : ColSet} (h : canonRow cols row) :
    ∀ acc : ColSet, Table.coerceGo P tname cols row acc = .ok (acc ++ row) := by
  induction h with
  | nil =>
    intro acc
    simp [Table.coerceGo]
  | cons hd tl ih =>
    rename_i cd p₀ cols' row'
    obtain ⟨c, dt⟩ := cd
    obtain ⟨k, v⟩ := p₀
    obtain ⟨hk, hty⟩ := hd
    simp only at hk hty
    subst hk
    intro acc
    have hre : removeEntry ((k, v) :: row') k = some (v, row') := by simp [removeEntry]
    simp only [Table.coerceGo, hre]
    rw [TypedValue.coerce.eq_def, if_pos hty]
    simp only [TypedValue.validate]
    rw [ih (acc ++ [(k, v)])]
    simp

/-- A record-building lookup ignores a leading entry whose key is not
a requested column. -/
theorem buildVals_irrel (tname : String) :
    ∀ (cols : List (String × DataType)) (k : String) (v : TypedValue) (row : ColSet),
      k ∉ cols.map Prod.fst →
      Table.buildVals tname cols ((k, v) :: row) = Table.buildVals tname cols row := by
  intro cols
  induction cols with
  | nil =>
    intro k v row _
    rfl
  | cons cd cols ih =>
    intro k v row hk
    obtain ⟨c, dt⟩ := cd
    simp only [List.map_cons, List.mem_cons, not_or] at hk
    cases hg : getVal row c with
    | none => simp only [Table.buildVals, getVal, if_neg hk.1, hg]
    | some v₀ => simp only [Table.buildVals, getVal, if_neg hk.1, hg, ih k v row hk.2]

/-- `insert`'s record builder on a canonical row returns exactly the
row's values in schema order. -/
theorem buildVals_canonical (tname : String)
    {cols : List (String × DataType)} {row : ColSet} (h : canonRow cols row) :
    (cols.map Prod.fst).Nodup →
    Table.buildVals tname cols row = .ok (row.map Prod.snd) := by
  induction h with
  | nil =>
    intro _
    rfl
  | cons hd tl ih =>
    rename_i cd p₀ cols' row'
    obtain ⟨c, dt⟩ := cd
    obtain ⟨k, v⟩ := p₀
    obtain ⟨hk, hty⟩ := hd
    simp only at hk hty
    subst hk
    intro hnd
    simp only [List.map_cons, List.nodup_cons] at hnd
    simp only [Table.buildVals, getVal, if_pos rfl]
    rw [buildVals_irrel tname cols' k v row' hnd.1, ih hnd.2]
    simp

/-- `Table::coerce` of the empty map is the accumulator (no key to
drain). -/
theorem coerceGo_nilMap (P : ParseFns) (tname : String) :
    ∀ (cols : List (String × DataType)) (acc : ColSet),
      Table.coerceGo P tname cols [] acc = .ok acc := by
  intro cols
  induction cols with
  | nil =>
    intro acc
    rfl
  | cons cd cols ih =>
    intro acc
    obtain ⟨c, dt⟩ := cd
    simp only [Table.coerceGo, removeEntry]
    exact ih acc

/-- A `select` scan with empty projection and empty conditions
returns exactly the live rows in file order. -/
theorem selectGo_all (t : Table) :
    ∀ file : List Rec, Table.selectGo t [] [] file = .ok (liveRows t file) := by
  intro file
  induction file with
  | nil => rfl
  | cons r rest ih =>
    cases hdel : r.deleted with
    | true => simp only [Table.selectGo, hdel, if_true, liveRows, ih]
    | false =>
      simp only [Table.selectGo, Table.checkConditions, Table.checkGo, hdel,
        Bool.false_eq_true, if_false, if_true, List.find?_nil, ih, liveRows, projectRow]
      simp

/-- `liveRows` distributes over file concatenation. -/
theorem liveRows_append (t : Table) (X Y : List Rec) :
    liveRows t (X ++ Y) = liveRows t X ++ liveRows t Y := by
  induction X with
  | nil => rfl
  | cons r rest ih =>
    cases hdel : r.deleted with
    | true => simp [liveRows, hdel, ih]
    | false => simp [liveRows, hdel, ih]

/-- The `update` scan over records that all fail the predicate (or
are tombstoned) changes nothing. -/
theorem updateGo_noMatch (t : Table) (P : ParseFns) (set conds : ColSet) :
    ∀ file : List Rec,
      (∀ r ∈ file, r.deleted = false →
        t.checkConditions (mkRow t.columns r.values) conds = .ok false) →
      Table.updateGo t P set conds file = .ok ([], file, []) := by
  intro file
  induction file with
  | nil =>
    intro _
    rfl
  | cons r rest ih =>
    intro hfail
    have hrest := ih fun x hx => hfail x (by simp [hx])
    cases hdel : r.deleted with
    | true => simp only [Table.updateGo, hdel, if_true, hrest]
    | false =>
      simp only [Table.updateGo, hdel, Bool.false_eq_true, if_false,
        hfail r (by simp) hdel, hrest]

/-- Prepending non-matching records to the `update` scan leaves them
in place in the output file. -/
theorem updateGo_append (t : Table) (P : ParseFns) (set conds : ColSet)
    (u : List ColSet) (f a : List Rec) :
    ∀ (A X : List Rec),
      (∀ x ∈ A, x.deleted = false →
        t.checkConditions (mkRow t.columns x.values) conds = .ok false) →
      Table.updateGo t P set conds X = .ok (u, f, a) →
      Table.updateGo t P set conds (A ++ X) = .ok (u, A ++ f, a) := by
  intro A
  induction A with
  | nil =>
    intro X _ hX
    simpa using hX
  | cons x A ih =>
    intro X hfail hX
    have hx := hfail x (by simp)
    have hrec := ih X (fun y hy => hfail y (by simp [hy])) hX
    cases hdel : x.deleted with
    | true =>
      simp only [List.cons_append, Table.updateGo, hdel, if_true, List.append_eq, hrec]
    | false =>
      simp only [List.cons_append, Table.updateGo, hdel, Bool.false_eq_true, if_false,
        List.append_eq, hx hdel, hrec]

/-! ### Splitting and joining lemmas for the catalog file format -/

theorem map_id_of {α : Type} (l : List α) (f : α → α) (h : ∀ x ∈ l, f x = x) :
    l.map f = l := by
  induction l with
  | nil => rfl
  | cons x l ih => simp [h x (by simp), ih fun y hy => h y (by simp [hy])]

theorem splitOnce_append (sep : Char) :
    ∀ xs ys : List Char, sep ∉ xs → splitOnce sep (xs ++ sep :: ys) = some (xs, ys) := by
  intro xs
  induction xs with
  | nil =>
    intro ys _
    simp [splitOnce]
  | cons c xs ih =>
    intro ys h
    simp only [List.mem_cons, not_or] at h
    simp only [List.cons_append, splitOnce, List.append_eq,
      if_neg (fun hh : c = sep => h.1 hh.symm), ih ys h.2]

theorem splitAll_no_sep (sep : Char) :
    ∀ s : List Char, sep ∉ s → splitAll sep s = [s] := by
  intro s
  induction s with
  | nil =>
    intro _
    rfl
  | cons c rest ih =>
    intro h
    simp only [List.mem_cons, not_or] at h
    simp only [splitAll, if_neg (fun hh : c = sep => h.1 hh.symm), ih h.2]
    rfl

theorem splitAll_append (sep : Char) :
    ∀ xs ys : List Char, sep ∉ xs →
      splitAll sep (xs ++ sep :: ys) = xs :: splitAll sep ys := by
  intro xs
  induction xs with
  | nil =>
    intro ys _
    simp [splitAll]
  | cons c xs ih =>
    intro ys h
    simp only [List.mem_cons, not_or] at h
    simp only [List.cons_append, splitAll, List.append_eq,
      if_neg (fun hh : c = sep => h.1 hh.symm), ih ys h.2]
    rfl

theorem joinWith_cons (sep : Char) (p : List Char) (ls : List (List Char)) (h : ls ≠ []) :
    joinWith sep (p :: ls) = p ++ sep :: joinWith sep ls := by
  cases ls with
  | nil => exact absurd rfl h
  | cons q ls' => rfl

/-- Splitting undoes joining when the separator occurs in no part. -/
theorem splitAll_joinWith (sep : Char) :
    ∀ parts : List (List Char), parts ≠ [] → (∀ p ∈ parts, sep ∉ p) →
      splitAll sep (joinWith sep parts) = parts := by
  intro parts
  induction parts with
  | nil =>
    intro h _
    exact absurd rfl h
  | cons p ps ih =>
    intro _ hfree
    cases ps with
    | nil => exact splitAll_no_sep sep p (hfree p (by simp))
    | cons q ps' =>
      rw [joinWith_cons sep p (q :: ps') (by simp), splitAll_append sep p _ (hfree p (by simp)),
        ih (by simp) fun x hx => hfree x (by simp [hx])]

theorem mem_joinWith (sep : Char) :
    ∀ (parts : List (List Char)) (x : Char), x ∈ joinWith sep parts →
      x = sep ∨ ∃ p ∈ parts, x ∈ p := by
  intro parts
  induction parts with
  | nil =>
    intro x hx
    simp [joinWith] at hx
  | cons p ps ih =>
    intro x hx
    cases ps with
    | nil => exact Or.inr ⟨p, by simp, hx⟩
    | cons q ps' =>
      rw [joinWith_cons sep p (q :: ps') (by simp)] at hx
      rcases List.mem_append.mp hx with h1 | h1
      · exact Or.inr ⟨p, by simp, h1⟩
      · rcases List.mem_cons.mp h1 with h2 | h2
        · exact Or.inl h2
        · rcases ih x h2 with h3 | ⟨p', hp', hx'⟩
          · exact Or.inl h3
          · exact Or.inr ⟨p', by simp [hp'], hx'⟩

theorem joinWith_ne_nil (sep : Char) (p : List Char) (ps : List (List Char)) (hp : p ≠ []) :
    joinWith sep (p :: ps) ≠ [] := by
  cases ps with
  | nil => exact hp
  | cons q ps' =>
    rw [joinWith_cons sep p (q :: ps') (by simp)]
    simp [hp]

theorem joinWith_getLast (sep : Char) :
    ∀ (ps : List (List Char)) (p : List Char), p ≠ [] → (∀ x ∈ ps, x ≠ []) →
      (joinWith sep (p :: ps)).getLast? = ((p :: ps).getLast (by simp)).getLast? := by
  intro ps
  induction ps with
  | nil =>
    intro p _ _
    rfl
  | cons q ps' ih =>
    intro p hp hall
    rw [joinWith_cons sep p (q :: ps') (by simp)]
    rw [List.getLast?_append_of_ne_nil]
    · rw [show sep :: joinWith sep (q :: ps') = [sep] ++ joinWith sep (q :: ps') from rfl]
      rw [List.getLast?_append_of_ne_nil]
      · rw [ih q (hall q (by simp)) fun x hx => hall x (by simp [hx])]
        simp [List.getLast_cons]
      · exact joinWith_ne_nil sep q ps' (hall q (by simp))
    · simp

/-- Parsing the newline-terminated lines written by `dump` recovers
them when no line contains a newline. -/
theorem splitAll_joinNL :
    ∀ ls : List (List Char), (∀ l ∈ ls, '\n' ∉ l) →
      splitAll '\n' ((ls.map (· ++ ['\n'])).flatten) = ls ++ [[]] := by
  intro ls
  induction ls with
  | nil =>
    intro _
    rfl
  | cons l ls ih =>
    intro h
    simp only [List.map_cons, List.flatten_cons]
    rw [show (l ++ ['\n']) ++ (ls.map (· ++ ['\n'])).flatten =
        l ++ '\n' :: (ls.map (· ++ ['\n'])).flatten by simp]
    rw [splitAll_append '\n' l _ (h l (by simp)), ih fun x hx => h x (by simp [hx])]
    rfl

theorem rustLines_joinNL (ls : List (List Char)) (h : ∀ l ∈ ls, '\n' ∉ l)
    (hcr : ∀ l ∈ ls, l.getLast? ≠ some '\r') :
    rustLines ((ls.map (· ++ ['\n'])).flatten) = ls := by
  simp only [rustLines, splitAll_joinNL ls h, List.getLast?_concat, if_pos rfl,
    List.dropLast_concat]
  exact map_id_of ls stripCR fun l hl => by rw [stripCR, if_neg (hcr l hl)]

/-! ### Facts about the catalog text components -/

theorem dbgName_no_comma (dt : DataType) : ',' ∉ dt.dbgName := by cases dt <;> decide

theorem dbgName_no_nl (dt : DataType) : '\n' ∉ dt.dbgName := by cases dt <;> decide

theorem dbgName_ne_nil (dt : DataType) : dt.dbgName ≠ [] := by cases dt <;> decide

theorem dbgName_last (dt : DataType) : dt.dbgName.getLast? ≠ some '\r' := by
  cases dt <;> decide

theorem tryFromChars_dbgName (dt : DataType) :
    DataType.tryFromChars dt.dbgName = some dt := by cases dt <;> decide

theorem lowerName_no_nl (k : SchemaKind) : '\n' ∉ k.lowerName := by cases k <;> decide

theorem lowerName_ne_nil (k : SchemaKind) : k.lowerName ≠ [] := by cases k <;> decide

theorem lowerName_last (k : SchemaKind) : k.lowerName.getLast? ≠ some '\r' := by
  cases k <;> decide

theorem mk_toList (s : String) : String.mk s.toList = s := rfl

theorem colChunk_ne_nil (cd : String × DataType) : colChunk cd ≠ [] := by
  simp [colChunk]

theorem colChunk_last (cd : String × DataType) : (colChunk cd).getLast? ≠ some '\r' := by
  rw [colChunk, List.getLast?_append_of_ne_nil _ (by simp),
    show ':' :: DataType.dbgName cd.2 = [':'] ++ DataType.dbgName cd.2 from rfl,
    List.getLast?_append_of_ne_nil _ (dbgName_ne_nil cd.2)]
  exact dbgName_last cd.2

theorem colChunk_no_comma (cd : String × DataType)
    (hc : ∀ ch ∈ cd.1.toList, asciiNameChar ch = true) : ',' ∉ colChunk cd := by
  rw [colChunk]
  intro hmem
  rcases List.mem_append.mp hmem with h1 | h1
  · exact absurd (hc ',' h1) (by decide)
  · rcases List.mem_cons.mp h1 with h2 | h2
    · exact absurd h2 (by decide)
    · exact dbgName_no_comma cd.2 h2

theorem colChunk_no_nl (cd : String × DataType)
    (hc : ∀ ch ∈ cd.1.toList, asciiNameChar ch = true) : '\n' ∉ colChunk cd := by
  rw [colChunk]
  intro hmem
  rcases List.mem_append.mp hmem with h1 | h1
  · exact absurd (hc '\n' h1) (by decide)
  · rcases List.mem_cons.mp h1 with h2 | h2
    · exact absurd h2 (by decide)
    · exact dbgName_no_nl cd.2 h2

theorem parseColumn_colChunk (cd : String × DataType)
    (hc : ∀ ch ∈ cd.1.toList, asciiNameChar ch = true) :
    parseColumn (colChunk cd) = some cd := by
  obtain ⟨c, dt⟩ := cd
  simp only [parseColumn, colChunk,
    splitOnce_append ':' c.toList _ (fun hm => absurd (hc ':' hm) (by decide)),
    tryFromChars_dbgName, mk_toList]

theorem pushCol_fresh (tabs : List (String × List (String × DataType))) (table : String)
    (cd : String × DataType) (h : table ∉ tabs.map Prod.fst) :
    pushCol tabs table cd = tabs ++ [(table, [cd])] := by
  induction tabs with
  | nil => rfl
  | cons q rest ih =>
    obtain ⟨k, cols⟩ := q
    simp only [List.map_cons, List.mem_cons, not_or] at h
    simp only [pushCol, if_neg (fun hh : k = table => h.1 hh.symm), ih h.2]
    rfl

theorem pushCol_last (tabs₀ : List (String × List (String × DataType))) (table : String)
    (built : List (String × DataType)) (cd : String × DataType)
    (h : table ∉ tabs₀.map Prod.fst) :
    pushCol (tabs₀ ++ [(table, built)]) table cd = tabs₀ ++ [(table, built ++ [cd])] := by
  induction tabs₀ with
  | nil => simp [pushCol]
  | cons q rest ih =>
    obtain ⟨k, cols⟩ := q
    simp only [List.map_cons, List.mem_cons, not_or] at h
    simp only [List.cons_append, pushCol, if_neg (fun hh : k = table => h.1 hh.symm),
      List.append_eq, ih h.2]

theorem parseChunks_dump (table : String) :
    ∀ (cols : List (String × DataType)) (tabs₀ : List (String × List (String × DataType)))
      (built : List (String × DataType)),
      table ∉ tabs₀.map Prod.fst →
      (∀ cd ∈ cols, ∀ ch ∈ cd.1.toList, asciiNameChar ch = true) →
      parseChunks table (cols.map colChunk) (tabs₀ ++ [(table, built)]) =
        some (tabs₀ ++ [(table, built ++ cols)]) := by
  intro cols
  induction cols with
  | nil =>
    intro tabs₀ built _ _
    simp [parseChunks]
  | cons cd cols ih =>
    intro tabs₀ built hfresh hc
    simp only [List.map_cons, parseChunks, parseColumn_colChunk cd (hc cd (by simp)),
      pushCol_last tabs₀ table built cd hfresh]
    rw [ih tabs₀ (built ++ [cd]) hfresh fun x hx => hc x (by simp [hx])]
    simp

theorem parseLine_dump (tabs : List (String × List (String × DataType)))
    (tb : String × List (String × DataType))
    (hfresh : tb.1 ∉ tabs.map Prod.fst) (hne : tb.2 ≠ [])
    (htb : ∀ ch ∈ tb.1.toList, asciiNameChar ch = true)
    (hcols : ∀ cd ∈ tb.2, ∀ ch ∈ cd.1.toList, asciiNameChar ch = true) :
    parseLine tabs (tableLine tb) = some (tabs ++ [tb]) := by
  obtain ⟨table, cols⟩ := tb
  simp only [tableLine, parseLine,
    splitOnce_append '#' table.toList _ (fun hm => absurd (htb '#' hm) (by decide)),
    mk_toList]
  rw [splitAll_joinWith ',' (cols.map colChunk) (by simpa using hne)
    (fun p hp => by
      obtain ⟨cd, hcd, h2⟩ := List.mem_map.mp hp
      exact h2 ▸ colChunk_no_comma cd (hcols cd hcd))]
  cases cols with
  | nil => exact absurd rfl hne
  | cons cd cols' =>
    simp only [List.map_cons, parseChunks, parseColumn_colChunk cd (hcols cd (by simp)),
      pushCol_fresh tabs table cd hfresh]
    rw [parseChunks_dump table cols' tabs [cd] hfresh fun x hx => hcols x (by simp [hx])]
    simp

theorem parseLines_dump :
    ∀ ts tabs : List (String × List (String × DataType)),
      ((tabs ++ ts).map Prod.fst).Nodup →
      (∀ tb ∈ ts, tb.2 ≠ [] ∧ (∀ ch ∈ tb.1.toList, asciiNameChar ch = true) ∧
        ∀ cd ∈ tb.2, ∀ ch ∈ cd.1.toList, asciiNameChar ch = true) →
      parseLines tabs (ts.map tableLine) = some (tabs ++ ts) := by
  intro ts
  induction ts with
  | nil =>
    intro tabs _ _
    simp [parseLines]
  | cons tb ts ih =>
    intro tabs hnd hts
    obtain ⟨hne, htb, hcols⟩ := hts tb (by simp)
    have hfresh : tb.1 ∉ tabs.map Prod.fst := by
      intro hmem
      have h2 := List.nodup_append.mp (by simpa using hnd)
      exact h2.2.2 hmem (by simp)
    simp only [List.map_cons, parseLines, parseLine_dump tabs tb hfresh hne htb hcols]
    have := ih (tabs ++ [tb]) (by simpa using hnd) fun x hx => hts x (by simp [hx])
    simpa using this

/-- `dump`'s output is the newline-terminated concatenation of the
header line and the table lines. -/
theorem dumpContent_eq (S : Schema) :
    Schema.dumpContent S =
      (((S.name.toList ++ ':' :: S.kind.lowerName) :: S.tables.map tableLine).map
        (· ++ ['\n'])).flatten := by
  simp only [Schema.dumpContent, List.map_cons, List.flatten_cons, List.map_map,
    Function.comp_def, List.singleton_append, List.append_assoc]

theorem header_no_nl (S : Schema) (hnl : '\n' ∉ S.name.toList) :
    '\n' ∉ S.name.toList ++ ':' :: S.kind.lowerName := by
  intro hmem
  rcases List.mem_append.mp hmem with h1 | h1
  · exact hnl h1
  · rcases List.mem_cons.mp h1 with h2 | h2
    · exact absurd h2 (by decide)
    · exact lowerName_no_nl S.kind h2

theorem header_last (S : Schema) :
    (S.name.toList ++ ':' :: S.kind.lowerName).getLast? ≠ some '\r' := by
  rw [List.getLast?_append_of_ne_nil _ (by simp),
    show ':' :: S.kind.lowerName = [':'] ++ S.kind.lowerName from rfl,
    List.getLast?_append_of_ne_nil _ (lowerName_ne_nil S.kind)]
  exact lowerName_last S.kind

theorem tableLine_no_nl (tb : String × List (String × DataType))
    (htb : ∀ ch ∈ tb.1.toList, asciiNameChar ch = true)
    (hcols : ∀ cd ∈ tb.2, ∀ ch ∈ cd.1.toList, asciiNameChar ch = true) :
    '\n' ∉ tableLine tb := by
  rw [tableLine]
  intro hmem
  rcases List.mem_append.mp hmem with h1 | h1
  · exact absurd (htb '\n' h1) (by decide)
  · rcases List.mem_cons.mp h1 with h2 | h2
    · exact absurd h2 (by decide)
    · rcases mem_joinWith ',' (tb.2.map colChunk) '\n' h2 with h3 | ⟨p, hp, h3⟩
      · exact absurd h3 (by decide)
      · obtain ⟨cd, hcd, h4⟩ := List.mem_map.mp hp
        exact colChunk_no_nl cd (hcols cd hcd) (h4 ▸ h3)

theorem tableLine_last (tb : String × List (String × DataType)) (hne : tb.2 ≠ []) :
    (tableLine tb).getLast? ≠ some '\r' := by
  obtain ⟨table, cols⟩ := tb
  cases cols with
  | nil => exact absurd rfl hne
  | cons cd cols' =>
    have hlist : (cd :: cols').map colChunk = colChunk cd :: cols'.map colChunk := rfl
    have hjoin_ne : joinWith ',' ((cd :: cols').map colChunk) ≠ [] := by
      rw [hlist]
      exact joinWith_ne_nil ',' (colChunk cd) (cols'.map colChunk) (colChunk_ne_nil cd)
    simp only [tableLine]
    rw [List.getLast?_append_of_ne_nil _ (by simp)]
    rw [show ('#' : Char) :: joinWith ',' ((cd :: cols').map colChunk) =
      ['#'] ++ joinWith ',' ((cd :: cols').map colChunk) from rfl]
    rw [List.getLast?_append_of_ne_nil _ hjoin_ne]
    rw [hlist]
    rw [joinWith_getLast ',' (cols'.map colChunk) (colChunk cd) (colChunk_ne_nil cd)
      (fun x hx => by
        obtain ⟨cd', hcd', h2⟩ := List.mem_map.mp hx
        exact h2 ▸ colChunk_ne_nil cd')]
    have hmem := List.getLast_mem (show colChunk cd :: cols'.map colChunk ≠ [] by simp)
    rcases List.mem_cons.mp hmem with h1 | h1
    · rw [h1]
      exact colChunk_last cd
    · obtain ⟨cd', hcd', h2⟩ := List.mem_map.mp h1
      rw [← h2]
      exact colChunk_last cd'

/-! ## C6 — the `DataType` enumeration -/

/-- C6 counterexample: `DataType` is not the claimed four-variant
enumeration — `ComplexInt` is a fifth variant. -/
theorem c6_four_variant_cex :
    ¬ ∀ d : DataType, d = .int ∨ d = .float ∨ d = .char ∨ d = .string := by
  intro h
  rcases h DataType.complexInt with h | h | h | h <;> exact DataType.noConfusion h

/-- C6 (amended): `DataType` is a closed enumeration with exactly the
six variants `Int`, `Float`, `Char`, `String`, `ComplexInt`,
`ComplexFloat`, with stable ordinals `0..5` (round-tripping through
`From<i32>`) and textual forms `int`, `float`, `char`, `string`,
`complex_int`, `complex_float` (round-tripping through
`TryFrom<&str>`); every `TypedValue` tag is one of these six kinds. -/
theorem c6_datatype_closed_six :
    (∀ d : DataType,
      d = .int ∨ d = .float ∨ d = .char ∨ d = .string ∨ d = .complexInt ∨ d = .complexFloat) ∧
    (∀ d : DataType,
      d.ordinal ≤ 5 ∧ DataType.fromI32 d.ordinal = some d ∧
        DataType.tryFromChars d.dbgName = some d) ∧
    (∀ v : TypedValue,
      v.dataType = .int ∨ v.dataType = .float ∨ v.dataType = .char ∨ v.dataType = .string ∨
        v.dataType = .complexInt ∨ v.dataType = .complexFloat) := by
  refine ⟨fun d => ?_, fun d => ?_, fun v => ?_⟩
  · cases d <;> simp
  · cases d <;> decide
  · cases v <;> simp [TypedValue.dataType]

/-! ## C1 — codec round trip -/

/-- C1 counterexample: a `Char` whose code point exceeds one byte does
not round-trip — `U+0100` is encoded as its low byte `0x00` and
decodes to `U+0000`, which is a different value (also under Rust
`==`). -/
theorem c1_char_truncation_cex :
    TypedValue.read (TypedValue.char 256).dataType (TypedValue.char 256).intoBytes =
        some (TypedValue.char 0, []) ∧
      TypedValue.char 0 ≠ TypedValue.char 256 ∧
      TypedValue.rustEq (TypedValue.char 0) (TypedValue.char 256) = false := by
  refine ⟨rfl, by decide, by decide⟩

/-- C1 (amended): for every well-formed `TypedValue` whose `Char`
payloads have code points below 256, decoding the bytes produced by
encoding it at its own type yields exactly the value back, with the
whole input consumed.  (`Char` values with larger code points are
truncated — see the counterexample; a NaN `Float` payload also
round-trips to the identical bit pattern, though Rust `==` then
reports it unequal to itself.) -/
theorem c1_roundtrip_of_charFits (v : TypedValue) (hwf : v.wf) (hc : v.charFits) :
    TypedValue.read v.dataType v.intoBytes = some (v, []) := by
  cases v with
  | int b =>
    simp only [TypedValue.read, TypedValue.intoBytes, TypedValue.dataType,
      takeExact_all 8 _ (length_toLeBytes 8 b)]
    rw [fromLeBytes_toLeBytes 8 b (pow256_8 ▸ hwf)]
  | float b =>
    simp only [TypedValue.read, TypedValue.intoBytes, TypedValue.dataType,
      takeExact_all 8 _ (length_toLeBytes 8 b)]
    rw [fromLeBytes_toLeBytes 8 b (pow256_8 ▸ hwf)]
  | char c =>
    simp only [TypedValue.read, TypedValue.intoBytes, TypedValue.dataType]
    rw [Nat.mod_eq_of_lt hc]
  | string s =>
    obtain ⟨hu, hl⟩ := hwf
    simp only [TypedValue.read, TypedValue.intoBytes, TypedValue.dataType,
      takeExact_append 8 _ _ (length_toLeBytes 8 s.length)]
    rw [fromLeBytes_toLeBytes 8 s.length (pow256_8 ▸ hl), takeExact_all s.length s rfl]
    simp [hu]
  | complexInt a b =>
    obtain ⟨ha, hb⟩ := hwf
    simp only [TypedValue.read, TypedValue.intoBytes, TypedValue.dataType,
      takeExact_append 8 _ _ (length_toLeBytes 8 a),
      takeExact_all 8 _ (length_toLeBytes 8 b)]
    rw [fromLeBytes_toLeBytes 8 a (pow256_8 ▸ ha), fromLeBytes_toLeBytes 8 b (pow256_8 ▸ hb)]
  | complexFloat a b =>
    obtain ⟨ha, hb⟩ := hwf
    simp only [TypedValue.read, TypedValue.intoBytes, TypedValue.dataType,
      takeExact_append 8 _ _ (length_toLeBytes 8 a),
      takeExact_all 8 _ (length_toLeBytes 8 b)]
    rw [fromLeBytes_toLeBytes 8 a (pow256_8 ▸ ha), fromLeBytes_toLeBytes 8 b (pow256_8 ▸ hb)]

/-- C1 witness: the round trip at the concrete string value "hi". -/
theorem c1_roundtrip_witness :
    TypedValue.read (TypedValue.string [104, 105]).dataType
        (TypedValue.string [104, 105]).intoBytes =
      some (TypedValue.string [104, 105], []) :=
  c1_roundtrip_of_charFits (TypedValue.string [104, 105]) (by decide) (by decide)

/-! ## C5 — the name validator -/

/-- C5 counterexample: `validate_name("")` returns `Ok` — `all` over
an empty character sequence is vacuously true, whatever the
alphanumeric predicate does — while the claim requires the empty
string to be rejected with `InvalidName`. -/
theorem c5_empty_name_cex : validateName (fun _ => false) "" = .ok () := rfl

/-- C5 (amended): `validate_name(s)` returns `Ok` iff every character
of `s` is alphanumeric or `_`; the empty string is accepted.  Stated
for ASCII strings, where Rust's Unicode `char::is_alphanumeric`
agrees with the ASCII class, the accepted set is exactly
`[A-Za-z0-9_]*`.  (Non-ASCII Unicode alphanumerics are also accepted
by the source, contrary to the claim's ASCII-only class.) -/
theorem c5_validate_name_ascii (isAlnum : Char → Bool)
    (hA : ∀ c : Char, c.toNat < 128 → isAlnum c = c.isAlphanum)
    (s : String) (hs : ∀ c ∈ s.toList, c.toNat < 128) :
    validateName isAlnum s = .ok () ↔ s.toList.all asciiNameChar = true := by
  have hpt : ∀ c ∈ s.toList, (isAlnum c || decide (c = '_')) = asciiNameChar c := by
    intro c hc
    rw [hA c (hs c hc), asciiNameChar]
  rw [validateName, list_all_congr hpt]
  constructor
  · intro h
    by_contra hall
    rw [if_neg hall] at h
    exact Except.noConfusion h
  · intro h
    rw [if_pos h]

/-- C5 witness: the name `ab_1` is accepted. -/
theorem c5_validate_name_witness : validateName Char.isAlphanum "ab_1" = .ok () :=
  (c5_validate_name_ascii Char.isAlphanum (fun _ _ => rfl) "ab_1" (by decide)).mpr (by decide)

/-! ## C7 — `alter_table` is all-or-nothing -/

/-- C7: whenever `alter_table` returns an error — `TableNotFound`,
`InvalidName`, `ColumnAlreadyExists` or `ColumnNotFound` — the
catalog is exactly what it was before the call (the source mutates
the table map only through the final `entry.insert`, which the error
paths never reach). -/
theorem c7_alter_table_all_or_nothing (isAlnum : Char → Bool) (s : Schema) (table : String)
    (rename : List (String × String)) (e : DbError)
    (h : (Schema.alterTable isAlnum s table rename).2 = some e) :
    (Schema.alterTable isAlnum s table rename).1 = s := by
  rw [Schema.alterTable] at h ⊢
  cases hA : assocGet s.tables table with
  | none => simp [hA]
  | some cols =>
    simp only [hA] at h ⊢
    cases hG : alterGo isAlnum table cols rename [] with
    | error e' => simp [hG]
    | ok pr =>
      obtain ⟨newCols, renLeft⟩ := pr
      cases renLeft with
      | nil => simp [hG] at h
      | cons q qs => simp [hG]

/-- C7 witness: altering an absent table errors with `TableNotFound`
and leaves the (empty) catalog unchanged. -/
theorem c7_alter_table_witness :
    (Schema.alterTable (fun _ => false) (Schema.mk [] "db" .dobby) "t" []).1 =
      Schema.mk [] "db" .dobby :=
  c7_alter_table_all_or_nothing (fun _ => false) (Schema.mk [] "db" .dobby) "t" []
    (.tableNotFound "t") (by decide)

/-! ## C9 — the `ColumnNotFound` branch of predicate checking is
unreachable on coerced conditions and iterated rows -/

/-- C9: when the conditions map has passed `Table::coerce` (so every
key is a schema column) and the row comes from `next_row` against the
schema (so it has a value for every schema column),
`check_conditions` cannot hit its `ColumnNotFound` branch: it returns
`Ok`. -/
theorem c9_check_conditions_no_missing_column (t : Table) (P : ParseFns) (m conds : ColSet)
    (r : Rec) (hc : t.coerceSet P m = .ok conds) (hr : recWF t r = true) :
    ∃ b, t.checkConditions (mkRow t.columns r.values) conds = .ok b :=
  checkConditions_total t P m conds r hc hr

/-- C9 witness: a coerced one-column condition map against a one-cell
row. -/
theorem c9_witness :
    ∃ b, Table.checkConditions ⟨"t", [("a", DataType.int)]⟩
        (mkRow [("a", DataType.int)] [TypedValue.int 2]) [("a", TypedValue.int 1)] = .ok b :=
  c9_check_conditions_no_missing_column ⟨"t", [("a", DataType.int)]⟩ noParse
    [("a", TypedValue.int 1)] [("a", TypedValue.int 1)] ⟨false, [TypedValue.int 2]⟩
    rfl (by decide)

/-- After `delete`'s scan, the live records of the resulting file are
exactly the records the scan saw fail the predicate, so a `select`
scan of the result with the same (coerced) conditions selects
nothing. -/
theorem selectGo_after_deleteGo (t : Table) (conds : ColSet) (cols : List String) :
    ∀ (file : List Rec) (d : List ColSet) (f' : List Rec),
      Table.deleteGo t conds file = .ok (d, f') →
      Table.selectGo t cols conds f' = .ok [] := by
  intro file
  induction file with
  | nil =>
    intro d f' h
    simp only [Table.deleteGo] at h
    cases h
    rfl
  | cons r rest ih =>
    intro d f' h
    cases hdel : r.deleted with
    | true =>
      simp only [Table.deleteGo, hdel, if_true] at h
      cases hrec : Table.deleteGo t conds rest with
      | error e =>
        simp only [hrec] at h
        exact Except.noConfusion h
      | ok df =>
        obtain ⟨d0, f0⟩ := df
        simp only [hrec] at h
        obtain ⟨rfl, rfl⟩ := Prod.mk.inj (Except.ok.inj h)
        simp only [Table.selectGo, hdel, if_true]
        exact ih d0 f0 hrec
    | false =>
      simp only [Table.deleteGo, hdel, Bool.false_eq_true, if_false] at h
      cases hchk : t.checkConditions (mkRow t.columns r.values) conds with
      | error e =>
        simp only [hchk] at h
        exact Except.noConfusion h
      | ok b =>
        simp only [hchk] at h
        cases b with
        | true =>
          simp only [if_true] at h
          cases hrec : Table.deleteGo t conds rest with
          | error e =>
            simp only [hrec] at h
            exact Except.noConfusion h
          | ok df =>
            obtain ⟨d0, f0⟩ := df
            simp only [hrec] at h
            obtain ⟨rfl, rfl⟩ := Prod.mk.inj (Except.ok.inj h)
            simp only [Table.selectGo]
            exact ih d0 f0 hrec
        | false =>
          simp only [Bool.false_eq_true, if_false] at h
          cases hrec : Table.deleteGo t conds rest with
          | error e =>
            simp only [hrec] at h
            exact Except.noConfusion h
          | ok df =>
            obtain ⟨d0, f0⟩ := df
            simp only [hrec] at h
            obtain ⟨rfl, rfl⟩ := Prod.mk.inj (Except.ok.inj h)
            simp only [Table.selectGo, hdel, Bool.false_eq_true, if_false, hchk]
            exact ih d0 f0 hrec

/-! ## C3 — delete, then select with the same predicate -/

/-- C3: after a successful `Delete{t, w}`, a `Select{t, _, w}` with
the same where-map (and any projection) on the resulting file returns
the empty list: every matching record's tombstone was set, and row
iteration skips tombstoned records. -/
theorem c3_delete_then_select_empty (t : Table) (P : ParseFns) (w : ColSet)
    (cols : List String) (file : List Rec) (d : List ColSet) (f' : List Rec)
    (h : t.deleteM P w file = .ok (d, f')) :
    t.selectM P cols w f' = .ok [] := by
  rw [Table.deleteM] at h
  cases hc : t.coerceSet P w with
  | error e => rw [hc] at h; exact Except.noConfusion h
  | ok conds =>
    rw [hc] at h
    rw [Table.selectM, hc]
    exact selectGo_after_deleteGo t conds cols file d f' h

/-- C3 witness: delete `a = 1` from a two-row table, then select with
the same predicate. -/
theorem c3_delete_then_select_witness :
    Table.selectM ⟨"t", [("a", DataType.int)]⟩ noParse [] [("a", TypedValue.int 1)]
        [⟨true, [TypedValue.int 1]⟩, ⟨false, [TypedValue.int 2]⟩] = .ok [] :=
  c3_delete_then_select_empty ⟨"t", [("a", DataType.int)]⟩ noParse [("a", TypedValue.int 1)] []
    [⟨false, [TypedValue.int 1]⟩, ⟨false, [TypedValue.int 2]⟩]
    [[("a", TypedValue.int 1)]]
    [⟨true, [TypedValue.int 1]⟩, ⟨false, [TypedValue.int 2]⟩] (by decide)

/-! ## C10 — NaN cells match no equality predicate -/

/-- C10: a row holding a `Float` NaN in some column fails every
conditions map that mentions that column — even with the bitwise
identical NaN as the condition value — because `check_conditions`
compares cells with Rust `==` (IEEE-754 on floats); the empty
conditions map still matches the row. -/
theorem c10_nan_row_never_matched (t : Table) (row conds : ColSet) (col : String)
    (nb : Nat) (w : TypedValue)
    (hrow : getVal row col = some (TypedValue.float nb)) (hnan : f64IsNaN nb = true)
    (hmem : (col, w) ∈ conds)
    (hkeys : ∀ p ∈ conds, (getVal row p.1).isSome = true) :
    t.checkConditions row conds = .ok false ∧ t.checkConditions row [] = .ok true := by
  refine ⟨?_, rfl⟩
  rw [Table.checkConditions, checkGo_eq hkeys true]
  have hfalse : allMatch row conds = false := by
    rw [allMatch, List.all_eq_false]
    refine ⟨(col, w), hmem, ?_⟩
    rw [hrow]
    simp [rustEq_nan_left hnan]
  rw [hfalse]
  rfl

/-- C10 witness: the quiet-NaN bit pattern `0x7FF8000000000000` in
column `x`, filtered on the identical NaN. -/
theorem c10_nan_witness :
    Table.checkConditions ⟨"t", [("x", DataType.float)]⟩
        [("x", TypedValue.float 0x7FF8000000000000)]
        [("x", TypedValue.float 0x7FF8000000000000)] = .ok false ∧
      Table.checkConditions ⟨"t", [("x", DataType.float)]⟩
        [("x", TypedValue.float 0x7FF8000000000000)] [] = .ok true :=
  c10_nan_row_never_matched ⟨"t", [("x", DataType.float)]⟩
    [("x", TypedValue.float 0x7FF8000000000000)]
    [("x", TypedValue.float 0x7FF8000000000000)] "x" 0x7FF8000000000000
    (TypedValue.float 0x7FF8000000000000) (by decide) (by decide) (by decide) (by decide)

/-! ## C4 — schema dump/load round trip -/

/-- C4 counterexample: line 1 of the written catalog file is not the
database display name alone — for a schema named `db` of kind `dobby`
it is `db:dobby`. -/
theorem c4_header_line_cex :
    (rustLines (Schema.dumpContent (Schema.mk [] "db" .dobby))).head? =
        some ("db:dobby".toList) ∧
      "db:dobby".toList ≠ "db".toList := by
  refine ⟨by decide, by decide⟩

/-- C4 (amended): for any valid schema — a map of validly-named
tables with pairwise-distinct names, each carrying a non-empty,
unique, validly-named column list — whose display name contains no
`:` and no newline, dumping and loading back yields an equal schema,
and line 1 of the written catalog file is `<name>:<kind>` (the
display name, a colon, and the lowercase backend kind), not the
display name alone. -/
theorem c4_dump_load_roundtrip (S : Schema)
    (hnodup : (S.tables.map Prod.fst).Nodup)
    (htabs : ∀ tb ∈ S.tables,
      (∀ ch ∈ tb.1.toList, asciiNameChar ch = true) ∧ tb.2 ≠ [] ∧
        (tb.2.map Prod.fst).Nodup ∧
        ∀ cd ∈ tb.2, ∀ ch ∈ cd.1.toList, asciiNameChar ch = true)
    (hcolon : ':' ∉ S.name.toList) (hnl : '\n' ∉ S.name.toList) :
    Schema.loadContent (Schema.dumpContent S) = some S ∧
    (rustLines (Schema.dumpContent S)).head? =
      some (S.name.toList ++ ':' :: S.kind.lowerName) := by
  have hlines : rustLines (Schema.dumpContent S) =
      (S.name.toList ++ ':' :: S.kind.lowerName) :: S.tables.map tableLine := by
    rw [dumpContent_eq, rustLines_joinNL]
    · intro l hl
      rcases List.mem_cons.mp hl with h1 | h1
      · subst h1
        exact header_no_nl S hnl
      · obtain ⟨tb, htbm, h2⟩ := List.mem_map.mp h1
        exact h2 ▸ tableLine_no_nl tb (htabs tb htbm).1 (htabs tb htbm).2.2.2
    · intro l hl
      rcases List.mem_cons.mp hl with h1 | h1
      · subst h1
        exact header_last S
      · obtain ⟨tb, htbm, h2⟩ := List.mem_map.mp h1
        exact h2 ▸ tableLine_last tb (htabs tb htbm).2.1
  refine ⟨?_, by rw [hlines]; rfl⟩
  simp only [Schema.loadContent, hlines,
    splitOnce_append ':' S.name.toList _ hcolon,
    parseLines_dump S.tables [] (by simpa using hnodup)
      (fun tb htb => ⟨(htabs tb htb).2.1, (htabs tb htb).1, (htabs tb htb).2.2.2⟩),
    List.nil_append, mk_toList]
  cases hk : S.kind with
  | dobby =>
    rw [if_pos rfl, ← hk]
  | sqlite =>
    rw [if_neg (by decide), if_pos rfl, ← hk]

/-- C4 witness: a one-table schema round-trips and its catalog file's
first line is `db:dobby`. -/
theorem c4_roundtrip_witness :
    Schema.loadContent
        (Schema.dumpContent (Schema.mk [("t", [("a", DataType.int)])] "db" .dobby)) =
      some (Schema.mk [("t", [("a", DataType.int)])] "db" .dobby) ∧
    (rustLines
        (Schema.dumpContent (Schema.mk [("t", [("a", DataType.int)])] "db" .dobby))).head? =
      some ("db".toList ++ ':' :: SchemaKind.dobby.lowerName) :=
  c4_dump_load_roundtrip (Schema.mk [("t", [("a", DataType.int)])] "db" .dobby)
    (by decide) (by decide) (by decide) (by decide)

/-! ## C2 — update of a single matched row, then select -/

/-- C2 counterexample: an `Update` whose `set` equals the matched
row's current values matches exactly one live row yet returns an
empty list (and appends nothing), not the row with the overlay
applied. -/
theorem c2_noop_update_cex :
    Table.updateM ⟨"t", [("a", DataType.int)]⟩ noParse [("a", TypedValue.int 1)] []
        [⟨false, [TypedValue.int 1]⟩] = .ok ([], [⟨false, [TypedValue.int 1]⟩]) ∧
      ([] : List ColSet) ≠ [[("a", TypedValue.int 1)]] := by
  refine ⟨by decide, by decide⟩

/-- C2 (amended): after an `Update{table, set, where}` that matches
exactly one live row and whose `set` overlay changes that row on at
least one key, the call returns exactly the row with the overlay
applied; the old version is tombstoned in place and the new version
appended at end-of-file (not re-processed, since the scan stops at
the EOF offset captured before it), so a subsequent `Select` with
empty `where` and empty projection returns the other live rows in
file order followed by the updated row — in particular the updated
row's new version exactly once. -/
theorem c2_update_single_match (t : Table) (P : ParseFns) (set conds set' conds' : ColSet)
    (A B : List Rec) (r : Rec) (newRow : ColSet)
    (hcols : (t.columns.map Prod.fst).Nodup)
    (hs : t.coerceSet P set = .ok set') (hc : t.coerceSet P conds = .ok conds')
    (hrdel : r.deleted = false) (hrwf : recWF t r = true)
    (hrmatch : t.checkConditions (mkRow t.columns r.values) conds' = .ok true)
    (hA : ∀ x ∈ A, x.deleted = false →
      t.checkConditions (mkRow t.columns x.values) conds' = .ok false)
    (hB : ∀ x ∈ B, x.deleted = false →
      t.checkConditions (mkRow t.columns x.values) conds' = .ok false)
    (hap : Table.applySet t.name set' (mkRow t.columns r.values) = .ok (newRow, true)) :
    t.updateM P set conds (A ++ r :: B) =
      .ok ([newRow],
        (A ++ Rec.mk true r.values :: B) ++ [Rec.mk false (newRow.map Prod.snd)]) ∧
    t.selectM P [] [] ((A ++ Rec.mk true r.values :: B) ++ [Rec.mk false (newRow.map Prod.snd)]) =
      .ok (liveRows t (A ++ B) ++ [newRow]) := by
  have hset't : ∀ p ∈ set', ∃ dt, assocGet t.columns p.1 = some dt ∧ p.2.dataType = dt := by
    intro p hp
    rw [Table.coerceSet] at hs
    rcases coerceGo_types P t.name t.columns set [] set' hs p hp with h1 | h1
    · simp at h1
    · obtain ⟨dt, hmem, hty⟩ := h1
      exact ⟨dt, assocGet_of_mem_nodup t.columns p.1 dt hmem hcols, hty⟩
  have hlen : r.values.length = t.columns.length := by
    simp only [recWF, Bool.and_eq_true, beq_iff_eq] at hrwf
    exact hrwf.1
  have hall : ∀ q ∈ List.zip t.columns r.values, TypedValue.dataType q.2 = q.1.2 := by
    simp only [recWF, Bool.and_eq_true, List.all_eq_true, beq_iff_eq] at hrwf
    exact fun q hq => hrwf.2 q hq
  have hrowc : canonRow t.columns (mkRow t.columns r.values) :=
    mkRow_canon t.columns r.values hlen hall
  have hnewkeys : newRow.map Prod.fst = t.columns.map Prod.fst := by
    rw [applySet_keys t.name set' (mkRow t.columns r.values) newRow true hap]
    exact canon_keys hrowc
  have hnewtyped := applySet_typed t.name t.columns set' (mkRow t.columns r.values) newRow true
    hap (canon_typed hrowc hcols) hset't
  have hnewc : canonRow t.columns newRow := canon_of t.columns newRow hnewkeys hcols hnewtyped
  have hcoid : t.coerceSet P newRow = .ok newRow := by
    rw [Table.coerceSet]
    simpa using coerceGo_canonical P t.name hnewc []
  have hbuild : Table.buildVals t.name t.columns newRow = .ok (newRow.map Prod.snd) :=
    buildVals_canonical t.name hnewc hcols
  have hBgo := updateGo_noMatch t P set' conds' B hB
  have hstep : Table.updateGo t P set' conds' (r :: B) =
      .ok ([newRow], Rec.mk true r.values :: B, [Rec.mk false (newRow.map Prod.snd)]) := by
    simp only [Table.updateGo, hrdel, Bool.false_eq_true, if_false, hrmatch, if_true, hap,
      hcoid, hbuild, hBgo]
  have hgo := updateGo_append t P set' conds' [newRow]
    (Rec.mk true r.values :: B) [Rec.mk false (newRow.map Prod.snd)] A (r :: B) hA hstep
  constructor
  · simp only [Table.updateM, hs, hc, hgo]
  · have hnil : t.coerceSet P ([] : ColSet) = .ok [] := by
      rw [Table.coerceSet]
      exact coerceGo_nilMap P t.name t.columns []
    have hmk : mkRow t.columns (newRow.map Prod.snd) = newRow := by
      rw [mkRow, ← hnewkeys]
      exact Eq.symm (List.zip_of_prod rfl rfl)
    simp only [Table.selectM, hnil, selectGo_all]
    rw [liveRows_append t (A ++ Rec.mk true r.values :: B) [Rec.mk false (newRow.map Prod.snd)],
      liveRows_append t A (Rec.mk true r.values :: B), liveRows_append t A B]
    simp [liveRows, hmk]

/-- C2 witness: updating the single row `a = 1` to `a = 2` and
selecting everything afterwards. -/
theorem c2_update_single_match_witness :
    Table.updateM ⟨"t", [("a", DataType.int)]⟩ noParse [("a", TypedValue.int 2)] []
        [⟨false, [TypedValue.int 1]⟩] =
      .ok ([[("a", TypedValue.int 2)]],
        [⟨true, [TypedValue.int 1]⟩, ⟨false, [TypedValue.int 2]⟩]) ∧
    Table.selectM ⟨"t", [("a", DataType.int)]⟩ noParse [] []
        [⟨true, [TypedValue.int 1]⟩, ⟨false, [TypedValue.int 2]⟩] =
      .ok [[("a", TypedValue.int 2)]] := by
  have h := c2_update_single_match ⟨"t", [("a", DataType.int)]⟩ noParse
    [("a", TypedValue.int 2)] [] [("a", TypedValue.int 2)] []
    [] [] ⟨false, [TypedValue.int 1]⟩ [("a", TypedValue.int 2)]
    (by decide) (by decide) (by decide) (by decide) (by decide) (by decide)
    (by intro x hx; simp at hx) (by intro x hx; simp at hx) (by decide)
  simpa using h

/-! ## C8 — a no-op update mutates nothing -/

/-- C8: an `Update{t, s, w}` whose matched rows already hold exactly
(under Rust `==`) the coerced `set` values on the `set` keys performs
no file mutation — no record is appended, no tombstone written, the
file is returned unchanged — and the list of updated rows is empty. -/
theorem c8_noop_update_unchanged (t : Table) (P : ParseFns) (set conds set' conds' : ColSet)
    (file : List Rec)
    (hcols : (t.columns.map Prod.fst).Nodup)
    (hs : t.coerceSet P set = .ok set') (hc : t.coerceSet P conds = .ok conds')
    (hwf : ∀ r ∈ file, recWF t r = true)
    (hmatch : ∀ r ∈ file, r.deleted = false →
      t.checkConditions (mkRow t.columns r.values) conds' = .ok true →
      ∀ p ∈ set', ∃ old, getVal (mkRow t.columns r.values) p.1 = some old ∧
        old.rustEq p.2 = true) :
    t.updateM P set conds file = .ok ([], file) := by
  have hnd := coerceSet_keys_nodup t P set set' hs hcols
  have hchk : ∀ r ∈ file, r.deleted = false →
      ∃ b, t.checkConditions (mkRow t.columns r.values) conds' = .ok b :=
    fun r hr _ => checkConditions_total t P conds conds' r hc (hwf r hr)
  rw [Table.updateM, hs, hc]
  simp only [updateGo_nochange t P set' conds' hnd file hchk hmatch, List.append_nil]

/-- C8 witness: updating `a := 1` where the single live row already
holds `a = 1` returns no rows and leaves the file untouched. -/
theorem c8_noop_update_witness :
    Table.updateM ⟨"t", [("a", DataType.int)]⟩ noParse [("a", TypedValue.int 1)] []
        [⟨false, [TypedValue.int 1]⟩] = .ok ([], [⟨false, [TypedValue.int 1]⟩]) :=
  c8_noop_update_unchanged ⟨"t", [("a", DataType.int)]⟩ noParse
    [("a", TypedValue.int 1)] [] [("a", TypedValue.int 1)] []
    [⟨false, [TypedValue.int 1]⟩] (by decide) (by decide) (by decide) (by decide)
    (by
      intro r hr hdel hchk p hp
      simp only [List.mem_singleton] at hr hp
      subst hr
      subst hp
      exact ⟨TypedValue.int 1, rfl, rfl⟩)

end Dobby
